import Mathlib

/-!
Verification of the wyag object-database implementation against its
natural-language specification.

The Rust sources are shallowly embedded: byte buffers become `List Nat`
(each element a byte value), fallible functions return an explicit result
type `PRes` distinguishing Rust panics (index/overflow aborts and
`assert_eq!` failures) from `anyhow` error results and successes, and the
imperative loops are written as structurally recursive functions over an
explicit iteration bound that coincides with the loop's own measure.
Machine-integer casts are modelled with `% 2 ^ w` where the source narrows.
-/

set_option maxRecDepth 8192

namespace Wyag

/-- Result of running a piece of Rust code: a panic (index out of bounds,
arithmetic overflow in debug builds, failed `assert_eq!`), an error value
propagated through `Result`, or a successful value. -/
inductive PRes (α : Type) where
  | panic : PRes α
  | err : String → PRes α
  | ok : α → PRes α
deriving DecidableEq, Repr

def PRes.bind {α β : Type} : PRes α → (α → PRes β) → PRes β
  | .panic, _ => .panic
  | .err e, _ => .err e
  | .ok a, f => f a

def PRes.map {α β : Type} (f : α → β) : PRes α → PRes β
  | .panic => .panic
  | .err e => .err e
  | .ok a => .ok (f a)

/-- Byte buffers: each element is one byte value. -/
abbrev Bytes := List Nat

/-- Rust indexing `v[i]`: panics when out of bounds. -/
def idx? {α : Type} (v : List α) (i : Nat) : PRes α :=
  if h : i < v.length then .ok v[i] else .panic

/-- Rust slicing `v[s..e]` (all uses in the embedded code are in bounds). -/
def slice (v : Bytes) (s e : Nat) : Bytes :=
  (v.take e).drop s

/-- ASCII bytes of a string literal. -/
def ascii (s : String) : Bytes :=
  s.data.map Char.toNat

/-- Rust `raw[i..].iter().position(|&b| b == c)`. -/
def posFrom (raw : Bytes) (i : Nat) (c : Nat) : Option Nat :=
  (raw.drop i).findIdx? (· == c)

/-! ## Key-value-list-with-message parser (src/kvlm.rs)

`kvlm_parse` stores values as index ranges into the (in-place rewritten)
input buffer; the map is an ordered multi-map.  `OrderedHashMap` is
embedded as an association list that preserves insertion order; `insert`
on an existing key replaces its value list in place. -/

/-- A half-open index range `start..stop` into a byte buffer. -/
abbrev KvRange := Nat × Nat

/-- Ordered multi-map from keys to lists of value ranges. -/
abbrev KvlmMap := List (Bytes × List KvRange)

/-- `OrderedHashMap::get`. -/
def mapGet (m : KvlmMap) (k : Bytes) : Option (List KvRange) :=
  (m.find? (fun p => p.1 == k)).map (·.2)

/-- `OrderedHashMap::insert`: replaces the value of an existing key in
place, otherwise appends a new entry. -/
def mapInsert (m : KvlmMap) (k : Bytes) (vs : List KvRange) : KvlmMap :=
  match m with
  | [] => [(k, vs)]
  | (k', vs') :: rest =>
      if k' = k then (k, vs) :: rest else (k', vs') :: mapInsert rest k vs

/-- The record insertion of `kvlm_parse_rec`: `get_mut` + `push` when the
key exists, `insert` of a singleton list otherwise. -/
def mapPush (m : KvlmMap) (k : Bytes) (v : KvRange) : KvlmMap :=
  match m with
  | [] => [(k, [v])]
  | (k', vs') :: rest =>
      if k' = k then (k', vs' ++ [v]) :: rest else (k', vs') :: mapPush rest k v

/-- Loop body of `kvlm_clean_value`: the iteration bound `n` equals
`e - i` at every reachable call, so fuel exhaustion coincides with the
loop's first break condition (`i + skip >= range.end` with `skip = 0`). -/
def cleanGo : Nat → Bytes → Nat → Nat → Nat → PRes (Bytes × Nat)
  | 0, vec, _, i, _ => .ok (vec, i)
  | n + 1, vec, e, i, skip =>
      if i + skip ≥ e then .ok (vec, i)
      else
        (idx? vec (i + skip - 1)).bind fun a =>
        (idx? vec (i + skip)).bind fun b =>
        let skip' := if a = 10 ∧ b = 32 then skip + 1 else skip
        if i + skip' ≥ e then .ok (vec, i)
        else
          (idx? vec (i + skip')).bind fun c =>
          cleanGo n (vec.set i c) e (i + 1) skip'

/-- `kvlm_clean_value(vec, range)`: drops one space after each newline
within the range, shifting the tail left in place; returns the rewritten
buffer and the new end index. -/
def kvlmCleanValue (vec : Bytes) (s e : Nat) : PRes (Bytes × Nat) :=
  if s ≥ vec.length then .ok (vec, s)
  else cleanGo (e - (s + 1)) vec e (s + 1) 0

/-- Value-scanning loop of `kvlm_parse_rec` (lines 40-50 of kvlm.rs):
advance `e` to each newline, continuing over newlines that are followed
by a space.  `e + (raw.len() - e - 1)` underflows (panics) when no newline
exists and `e = raw.len()`.  The fuel only bounds the number of
continuation steps; `raw.length` always suffices. -/
def findEnd : Nat → Bytes → Nat → PRes Nat
  | n, raw, e =>
      match posFrom raw e 10 with
      | none => if e < raw.length then .ok (raw.length - 1) else .panic
      | some k =>
          let m := e + k
          if m + 1 ≥ raw.length then .ok m
          else if raw.getD (m + 1) 0 = 32 then
            match n with
            | 0 => .panic
            | n' + 1 => findEnd n' raw (m + 1)
          else .ok m

/-- `kvlm_parse_rec`: one record per step; the trailing message is stored
under the empty key.  The fuel bounds the number of records; the caller's
`raw.length + 1` always suffices since each record consumes at least two
bytes. -/
def kvlmParseRec : Nat → Bytes → KvlmMap → Nat → PRes (Bytes × KvlmMap)
  | 0, _, _, _ => .panic
  | fuel + 1, raw, map, i =>
      if raw.length = i then .ok (raw, map)
      else
        (idx? raw i).bind fun b =>
        if b = 10 then .ok (raw, mapInsert map [] [(i + 1, raw.length)])
        else
          match posFrom raw i 32 with
          | none => .err ("kvlm missing space")
          | some k =>
              let spc := i + k
              let key := slice raw i spc
              (findEnd raw.length raw (spc + 1)).bind fun e =>
              (kvlmCleanValue raw (spc + 1) e).bind fun cl =>
              kvlmParseRec fuel cl.1 (mapPush map key (spc + 1, cl.2)) (e + 1)

/-- `kvlm_parse`. -/
def kvlmParse (raw : Bytes) : PRes (Bytes × KvlmMap) :=
  kvlmParseRec (raw.length + 1) raw [] 0

/-- `kvlm_serialize`: each value is re-split at newlines, every chunk
prefixed with one space and terminated by a newline; the empty-key entry
(the message) is emitted last after a blank line. -/
def kvlmSerialize (data : Bytes) (m : KvlmMap) : Bytes :=
  let body :=
    (m.filter (fun p => !(p.1 == []))).flatMap fun p =>
      p.1 ++ p.2.flatMap fun r =>
        ((slice data r.1 r.2).splitOn 10).flatMap fun c => 32 :: c ++ [10]
  let rest := ((m.reverse).find? (fun p => p.1 == [])).map (·.2)
  match rest with
  | none => body
  | some vs => body ++ 10 :: vs.flatMap fun r => slice data r.1 r.2

/-- Materialized value of a parse result: keys paired with the byte
contents of their value ranges, in insertion order.  This is the ordered
multi-map the specification's round-trip property compares. -/
def matKvlm (data : Bytes) (m : KvlmMap) : List (Bytes × List Bytes) :=
  m.map fun p => (p.1, p.2.map fun r => slice data r.1 r.2)

/-- Parse and materialize; `none` when the parser rejects (or panics). -/
def matParse (raw : Bytes) : Option (List (Bytes × List Bytes)) :=
  match kvlmParse raw with
  | .ok (d, m) => some (matKvlm d m)
  | _ => none

/-- Parse and re-serialize; `none` when the parser rejects (or panics). -/
def reSerialize (raw : Bytes) : Option Bytes :=
  match kvlmParse raw with
  | .ok (d, m) => some (kvlmSerialize d m)
  | _ => none

/-! ## Commit objects (src/gitobject/commit.rs) -/

/-- `CommitObject`: the parsed buffer together with its kvlm map. -/
structure CommitObject where
  data : Bytes
  kvlm : KvlmMap
deriving DecidableEq, Repr

/-- `CommitObject::from`. -/
def CommitObject.from? (data : Bytes) : PRes CommitObject :=
  (kvlmParse data).map fun p => ⟨p.1, p.2⟩

/-- `CommitObject::get`: the byte contents of every value stored under
the given key.  (The source converts each value to a `String`, replacing
invalid UTF-8 by a `"<<bad-utf8>>"` marker; both the marker and any
non-ASCII text fail the numeric parse below exactly as the raw bytes do,
so the byte-level model is observationally equal.) -/
def CommitObject.get (c : CommitObject) (name : Bytes) : List Bytes :=
  match mapGet c.kvlm name with
  | none => []
  | some vs => vs.map fun r => slice c.data r.1 r.2

/-- Rust `str::parse::<uXX>` with an exclusive bound `2 ^ w`: an optional
leading `+`, then one or more ASCII digits, rejecting overflow. -/
def rustParseUInt (bound : Nat) (s : Bytes) : Option Nat :=
  let ds := match s with
    | 43 :: rest => rest
    | _ => s
  if ds = [] then none
  else
    ds.foldl
      (fun acc b =>
        match acc with
        | none => none
        | some a =>
            if 48 ≤ b ∧ b ≤ 57 then
              if a * 10 + (b - 48) < bound then some (a * 10 + (b - 48)) else none
            else none)
      (some 0)

/-- `CommitObject::committer_timestamp`: the whole value of the first
`committer` record run through `str::parse::<u32>`, with `0` on absence
or on a parse error. -/
def CommitObject.committerTimestamp (c : CommitObject) : Nat :=
  match (c.get (ascii ("committer"))).head? with
  | none => 0
  | some v => (rustParseUInt (2 ^ 32) v).getD 0

/-- Parse a buffer as a commit and take its committer timestamp. -/
def committerTimestampOf (raw : Bytes) : PRes Nat :=
  (CommitObject.from? raw).map CommitObject.committerTimestamp

/-! ## Binary object kinds and identifier validation

The enum `BinaryObject` and the `Pack` reader live in a pack module that
is not present under src/ (the checked-in `pack.rs` is an older draft
without them); the kind tags below follow the specification. -/

/-- Modelled from the spec: the raw-object type (binary-kind), a tag
drawn from blob, commit, tree, tag, offset-delta and ref-delta, the
delta variants carrying their base reference.  (The defining pack module
is absent from src/; only its users are present.) -/
inductive BinaryObject where
  | blob : BinaryObject
  | commit : BinaryObject
  | tree : BinaryObject
  | tag : BinaryObject
  | offsetDelta : Nat → BinaryObject
  | refDelta : Bytes → BinaryObject
deriving DecidableEq, Repr

/-- Modelled from the spec: the kind tag used in the loose-object header
`<kind> <ascii-decimal-size>\0<payload>`. -/
def BinaryObject.nameBytes : BinaryObject → Bytes
  | .blob => ascii ("blob")
  | .commit => ascii ("commit")
  | .tree => ascii ("tree")
  | .tag => ascii ("tag")
  | .offsetDelta _ => ascii ("offset-delta")
  | .refDelta _ => ascii ("ref-delta")

/-- ASCII decimal digits of a number (Rust `usize::to_string`). -/
def decimalBytes (n : Nat) : Bytes :=
  (Nat.toDigits 10 n).map Char.toNat

/-- `util::get_sha1`: digest of `<kind> <ascii-decimal-size>\0<data>`.
The 160-bit digest itself is kept abstract as a parameter `hash`. -/
def getSha1 (hash : Bytes → Bytes) (t : BinaryObject) (data : Bytes) : Bytes :=
  hash (t.nameBytes ++ [32] ++ decimalBytes data.length ++ [0] ++ data)

/-- `util::validate_sha1`. -/
def validateSha1 (hash : Bytes → Bytes) (sha1 : Bytes) (t : BinaryObject)
    (data : Bytes) : PRes Unit :=
  if getSha1 hash t data = sha1 then .ok () else .err ("sha1 did not validate")

/-! ## Loose-object reader (`Repository::read_object_file_data`) -/

/-- `Repository::read_object_file_data`, as a function of the decompressed
byte stream of the loose-object file.  The source first calls
`read_exact` on a fixed 64-byte buffer, so any object whose decompressed
form is shorter than 64 bytes fails with a read error before the header
is even inspected.  An unknown kind tag hits `unimplemented!` (a panic). -/
def readObjectFileData (hash : Bytes → Bytes) (sha1 : Bytes)
    (decompressed : Bytes) : PRes (BinaryObject × Bytes) :=
  if decompressed.length < 64 then .err ("reading object file")
  else
    let raw := decompressed.take 64
    match raw.findIdx? (· == 32) with
    | none => .err ("expected space")
    | some spc =>
      let objectType := raw.take spc
      let raw1 := raw.drop spc
      match raw1.findIdx? (· == 0) with
      | none => .err ("expected null")
      | some z =>
        let sizeBytes := (raw1.drop 1).take z
        match rustParseUInt (2 ^ 64) (sizeBytes.take (sizeBytes.length - 1)) with
        | none => .err ("parsing size as usize")
        | some size =>
          let data := (raw1.drop 1).drop z ++ decompressed.drop 64
          if size = data.length then
            let kind? : PRes BinaryObject :=
              if objectType = ascii ("blob") then .ok .blob
              else if objectType = ascii ("commit") then .ok .commit
              else if objectType = ascii ("tree") then .ok .tree
              else if objectType = ascii ("tag") then .ok .tag
              else .panic
            kind?.bind fun kind =>
              (validateSha1 hash sha1 kind data).map fun _ => (kind, data)
          else .err ("object corrupt: size does not match expected")

/-! ## Delta engine (src/gitobject/delta.rs) -/

/-- A parsed delta instruction. -/
inductive DeltaInstruction where
  | copy : Nat → Nat → DeltaInstruction
  | insert : Bytes → DeltaInstruction
deriving DecidableEq, Repr

/-- A parsed delta: declared base size, declared result size, and the
instruction stream. -/
structure DeltaObject where
  baseSize : Nat
  expandedSize : Nat
  instructions : List DeltaInstruction
deriving DecidableEq, Repr

/-- Instruction loop of `DeltaObject::rebuild`: `Copy(offset, size)`
slices `reference_data[offset..offset + size]` with no bounds check, so
an out-of-range copy is a slice-index panic. -/
def rebuildGo (ref : Bytes) : List DeltaInstruction → Bytes → PRes Bytes
  | [], acc => .ok acc
  | .copy o s :: rest, acc =>
      if o + s ≤ ref.length then rebuildGo ref rest (acc ++ slice ref o (o + s))
      else .panic
  | .insert d :: rest, acc => rebuildGo ref rest (acc ++ d)

/-- `DeltaObject::rebuild`. -/
def DeltaObject.rebuild (d : DeltaObject) (ref : Bytes) : PRes Bytes :=
  (rebuildGo ref d.instructions []).bind fun res =>
    if res.length = d.expandedSize then .ok res
    else .err ("unpacked file size incorrect")

/-! ## Pack index (src/packindex.rs)

`PackIndex::new` streams the file once through a `HashingReader`; the
reader state below carries the not-yet-consumed bytes and the bytes
delivered so far (whose digest `finalize` returns).  The digest function
itself stays an explicit parameter. -/

/-- `HashingReader` state: remaining input and the bytes already read. -/
structure HReader where
  rest : Bytes
  hashed : Bytes
deriving DecidableEq, Repr

/-- `read_exact` of `n` bytes: an error result (not a panic) on short
input; consumed bytes are appended to the digest stream. -/
def hrRead (n : Nat) (r : HReader) : PRes (Bytes × HReader) :=
  if r.rest.length < n then .err ("unexpected eof")
  else .ok (r.rest.take n, ⟨r.rest.drop n, r.hashed ++ r.rest.take n⟩)

/-- Big-endian value of a byte group. -/
def beVal (bs : Bytes) : Nat :=
  bs.foldl (fun a b => a * 256 + b) 0

/-- Split a buffer into `n` groups of `k` bytes each. -/
def groups (k : Nat) : Nat → Bytes → List Bytes
  | 0, _ => []
  | n + 1, bs => bs.take k :: groups k n (bs.drop k)

/-- `read_n_u32be`. -/
def readNU32be (n : Nat) (r : HReader) : PRes (List Nat × HReader) :=
  (hrRead (4 * n) r).map fun p => ((groups 4 n p.1).map beVal, p.2)

/-- `read_n_u64be`. -/
def readNU64be (n : Nat) (r : HReader) : PRes (List Nat × HReader) :=
  (hrRead (8 * n) r).map fun p => ((groups 8 n p.1).map beVal, p.2)

/-- `read_hashes`: `n` twenty-byte identifiers. -/
def readHashes (n : Nat) (r : HReader) : PRes (List Bytes × HReader) :=
  (hrRead (20 * n) r).map fun p => (groups 20 n p.1, p.2)

/-- The parsed index structure. -/
structure PackIndex where
  fanout : List Nat
  hashes : List Bytes
  crc32 : List Nat
  offsets : List Nat
  offsets64 : List Nat
  packSha1 : Bytes
  indexSha1 : Bytes
deriving DecidableEq, Repr

/-- `check_header`: magic `ff 74 4f 63` then big-endian version 2. -/
def checkHeader (r : HReader) : PRes HReader :=
  (hrRead 4 r).bind fun p =>
    if p.1 = [255, 116, 79, 99] then
      (hrRead 4 p.2).bind fun q =>
        if beVal q.1 = 2 then .ok q.2 else .err ("only version 2 supported")
    else .err ("invalid header")

/-- `PackIndex::new`: header, 256-entry fanout, `fanout[255]` hashes,
CRCs and offsets, the 64-bit spill, the companion-pack identifier, then
the running digest is finalized and compared with the stored trailing
digest by `assert_eq!` — a mismatch is a panic, not an error result. -/
def packIndexNew (hash : Bytes → Bytes) (input : Bytes) : PRes PackIndex :=
  (checkHeader ⟨input, []⟩).bind fun r0 =>
  (readNU32be 256 r0).bind fun (fanout, r1) =>
  let n := fanout.getD 255 0
  (readHashes n r1).bind fun (hashes, r2) =>
  (readNU32be n r2).bind fun (crc32, r3) =>
  (readNU32be n r3).bind fun (offsets, r4) =>
  let m := (offsets.filter (fun o => o.testBit 31)).length
  (readNU64be m r4).bind fun (offsets64, r5) =>
  (hrRead 20 r5).bind fun (packSha1, r6) =>
  let computed := hash r6.hashed
  (hrRead 20 r6).bind fun (indexSha1, _) =>
  if computed = indexSha1 then
    .ok ⟨fanout, hashes, crc32, offsets, offsets64, packSha1, indexSha1⟩
  else .panic

/-- Lexicographic comparison of byte slices (Rust `<[u8]>::cmp`). -/
def bytesCmp : Bytes → Bytes → Ordering
  | [], [] => .eq
  | [], _ :: _ => .lt
  | _ :: _, [] => .gt
  | a :: as', b :: bs' =>
      if a < b then .lt else if b < a then .gt else bytesCmp as' bs'

/-- Binary-search loop shared by `PackIndex::search_hash` and
`GlobalIndex::search`: `left`/`right` are inclusive bounds; `right = i - 1`
underflows (panics) when `i = 0`, and `hashes[i]` panics out of range.
The fuel bounds the iteration count; `right + 2` always suffices since
the interval shrinks every step. -/
def searchGo (hashes : List Bytes) (sha1 : Bytes) :
    Nat → Nat → Nat → PRes (Option Nat)
  | 0, _, _ => .panic
  | fuel + 1, left, right =>
      if left ≤ right then
        let i := (right - left) / 2 + left
        (idx? hashes i).bind fun h =>
        match bytesCmp h sha1 with
        | .lt => searchGo hashes sha1 fuel (i + 1) right
        | .gt => if i = 0 then .panic else searchGo hashes sha1 fuel left (i - 1)
        | .eq => .ok (some i)
      else .ok none

/-- `PackIndex::search_hash`: the binary search runs over
`[fanout[first - 1] + 1, fanout[first]]` (inclusive). -/
def PackIndex.searchHash (idx : PackIndex) (sha1 : Bytes) : PRes (Option Nat) :=
  if sha1.length = 20 then
    let first := sha1.headD 0
    let left := if first = 0 then 0 else idx.fanout.getD (first - 1) 0 + 1
    let right := idx.fanout.getD first 0
    searchGo idx.hashes sha1 (right + 2) left right
  else .panic

/-- `PackIndex::find`: on a hit, a set top bit in the 32-bit offset slot
redirects to the 64-bit spill table via the low 31 bits. -/
def PackIndex.find (idx : PackIndex) (sha1 : Bytes) : PRes (Option Nat) :=
  (idx.searchHash sha1).bind fun
    | none => .ok none
    | some i =>
        (idx? idx.offsets i).bind fun o =>
        if o.testBit 31 then
          (idx? idx.offsets64 (o % 2 ^ 31)).map fun o64 => some o64
        else .ok (some o)

/-- `PackIndex::iter` materialized: `(id, offset)` pairs in index order,
resolving spilled offsets.  (Spill indexing panics out of range.) -/
def PackIndex.items (idx : PackIndex) : PRes (List (Bytes × Nat)) :=
  let step := fun (acc : PRes (List (Bytes × Nat))) (p : Bytes × Nat) =>
    acc.bind fun l =>
      if p.2.testBit 31 then
        (idx? idx.offsets64 (p.2 ^^^ 2 ^ 31)).map fun o64 => l ++ [(p.1, o64)]
      else .ok (l ++ [(p.1, p.2)])
  (idx.hashes.zip idx.offsets).foldl step (.ok [])

/-! ## Global index and object location (src/repository.rs) -/

/-- Where an object lives: a loose file or `(pack id, offset)`. -/
inductive ObjectLocation where
  | objectFile : ObjectLocation
  | packFile : Bytes → Nat → ObjectLocation
deriving DecidableEq, Repr

/-- The merged index built by `Repository::init_global_index`. -/
structure GlobalIndex where
  fanout : List Nat
  hashes : List Bytes
  locations : List ObjectLocation
deriving DecidableEq, Repr

/-- Stable insertion into a hash-sorted item list (Rust `sort_by` with
`hash1.cmp(hash2)` is a stable sort; earlier items stay before equal
later ones). -/
def insSorted (x : Bytes × Bytes × Nat) :
    List (Bytes × Bytes × Nat) → List (Bytes × Bytes × Nat)
  | [] => [x]
  | y :: ys =>
      if bytesCmp y.1 x.1 = .lt then y :: insSorted x ys else x :: y :: ys

/-- Stable sort of the merged items by hash. -/
def sortByHash (l : List (Bytes × Bytes × Nat)) : List (Bytes × Bytes × Nat) :=
  l.foldr insSorted []

/-- The `while hash_prefix < hash[0]` loop of `init_global_index`: fills
`fanout[hash_prefix] = (i - 1) as u32` for every prefix below the current
first byte.  At `i = 0` the `usize` subtraction underflows (a panic in
debug builds).  The fuel equals `h0 - hp` at every reachable call. -/
def fanoutFill : Nat → List Nat → Nat → Nat → PRes (List Nat × Nat)
  | 0, fanout, hp, _ => .ok (fanout, hp)
  | n + 1, fanout, hp, i =>
      if i = 0 then .panic
      else fanoutFill n (fanout.set hp ((i - 1) % 2 ^ 32)) (hp + 1) i

/-- Item loop of `init_global_index`. -/
def giBuildGo : List (Bytes × Bytes × Nat) → GlobalIndex → Nat → Nat →
    PRes GlobalIndex
  | [], g, _, _ => .ok g
  | (h, p, o) :: rest, g, hp, i =>
      (fanoutFill (h.headD 0 - hp) g.fanout hp i).bind fun (fanout', hp') =>
      giBuildGo rest
        ⟨fanout', g.hashes ++ [h], g.locations ++ [.packFile p o]⟩ hp' (i + 1)

/-- Pure core of `Repository::init_global_index`: flatten every
discovered index into `(hash, pack id, offset)` items, stable-sort by
hash, then build the fanout and parallel hash/location arrays.  Note the
loop never writes `fanout[b]` for `b` at or above the largest first byte
present. -/
def buildGlobalIndex (indices : List (Bytes × List (Bytes × Nat))) :
    PRes GlobalIndex :=
  let allItems := indices.flatMap fun q => q.2.map fun it => (it.1, q.1, it.2)
  giBuildGo (sortByHash allItems) ⟨List.replicate 256 0, [], []⟩ 0 0

/-- `GlobalIndex::search`: like `search_hash` but with
`left = fanout[first - 1]` (no `+ 1`) and locations as payload. -/
def GlobalIndex.search (g : GlobalIndex) (sha1 : Bytes) :
    PRes (Option ObjectLocation) :=
  let first := sha1.headD 0
  let left := if first = 0 then 0 else g.fanout.getD (first - 1) 0
  let right := g.fanout.getD first 0
  (searchGo g.hashes sha1 (right + 2) left right).bind fun
    | none => .ok none
    | some i => (idx? g.locations i).map fun loc => some loc

/-- Filesystem view used by `find_object_location`:
`packDir = none` models a failing `read_dir` on `objects/pack` (for
instance the directory does not exist — `Repository::init` never creates
it); each discovered `pack-*.idx` entry is either a successfully opened
index (its pack id and `(hash, offset)` items) or `none` when
`open_index` failed (such entries are silently skipped). -/
structure RepoFS where
  packDir : Option (List (Option (Bytes × List (Bytes × Nat))))
  loose : List Bytes

/-- `Repository::init_global_index` over the filesystem view. -/
def initGlobalIndexFS (fs : RepoFS) : PRes GlobalIndex :=
  match fs.packDir with
  | none => .err ("reading objects pack dir")
  | some entries => buildGlobalIndex (entries.filterMap id)

/-- `Repository::find_object_location`: build (or reuse) the global
index — an `Err` there is swallowed by `.ok()?` and the function answers
`None` without ever checking the loose path; otherwise search the global
index and only on a miss test the loose object file. -/
def findObjectLocation (fs : RepoFS) (sha1 : Bytes) :
    PRes (Option ObjectLocation) :=
  match initGlobalIndexFS fs with
  | .panic => .panic
  | .err _ => .ok none
  | .ok g =>
      (g.search sha1).map fun
        | some loc => some loc
        | none => if sha1 ∈ fs.loose then some .objectFile else none

/-! ## Repository initialization (`Repository::init`) -/

/-- The filesystem facts `Repository::init` consults: whether the
worktree path and the gitdir (`<worktree>/.git`) exist, whether each is a
directory, and whether the gitdir has any entry. -/
structure InitFS where
  worktreeExists : Bool
  worktreeIsDir : Bool
  gitdirExists : Bool
  gitdirIsDir : Bool
  gitdirEmpty : Bool
deriving DecidableEq, Repr

/-- What a successful `init` creates under the gitdir. -/
structure Skeleton where
  dirs : List String
  files : List (String × String)
  config : List (String × String × String)
deriving DecidableEq, Repr

/-- The skeleton written by `Repository::init`: four directories, the
description placeholder, `HEAD` pointing at `refs/heads/master`, and the
`default_config()` ini contents (section, key, value). -/
def initSkeleton : Skeleton where
  dirs := ["branches", "objects", "refs/tags", "refs/heads"]
  files :=
    [("description",
      "Unnamed repository; edit this file 'description' to name the repository.\n"),
     ("HEAD", "ref: refs/heads/master\n")]
  config :=
    [("core", "repositoryformatversion", "0"),
     ("core", "filemode", "false"),
     ("core", "bare", "false")]

/-- `Repository::init`: an existing worktree must be a directory; an
existing gitdir must be an empty directory; otherwise the skeleton is
created (missing directories via `create_dir_all`, files via
`File::create_new`, which cannot collide inside an empty gitdir). -/
def repoInit (fs : InitFS) : PRes Skeleton :=
  if fs.worktreeExists then
    if !fs.worktreeIsDir then .err ("is not a directory")
    else if fs.gitdirExists then
      if !fs.gitdirIsDir then .err ("exists and is not a directory")
      else if !fs.gitdirEmpty then .err ("exists but is not empty")
      else .ok initSkeleton
    else .ok initSkeleton
  else .ok initSkeleton

/-! ## Log iterator (src/logiterator.rs)

`LogIterator` is embedded over an oracle `g` mapping each commit
identifier to its decoded commit (committer timestamp and parent list),
which models `read_commit` through the repository caches.  `BinaryHeap`
is a max-heap ordered by timestamp only (`HeapItem::cmp`); its order
among equal timestamps is unspecified in Rust, fixed here as
first-in-first-out. -/

/-- Decoded commit data the iterator consumes. -/
structure CommitNode where
  ts : Nat
  parents : List Bytes
deriving DecidableEq, Repr

/-- Iterator state: the priority frontier and the seen set. -/
structure LogState where
  heap : List (Nat × Bytes)
  seen : List Bytes
deriving DecidableEq, Repr

/-- `BinaryHeap::pop`: remove an element of maximal timestamp. -/
def popMax : List (Nat × Bytes) → Option ((Nat × Bytes) × List (Nat × Bytes))
  | [] => none
  | x :: xs =>
      match popMax xs with
      | none => some (x, [])
      | some (m, rest) =>
          if m.1 ≤ x.1 then some (x, xs) else some (m, x :: rest)

/-- The pop loop of `LogIterator::next`: pop until an unseen identifier
turns up, marking it seen.  The fuel equals the heap size at every
reachable call (each pop removes one element). -/
def popFresh : Nat → LogState → Option (Bytes × LogState)
  | 0, _ => none
  | n + 1, s =>
      match popMax s.heap with
      | none => none
      | some ((_, cur), rest) =>
          if cur ∈ s.seen then popFresh n ⟨rest, s.seen⟩
          else some (cur, ⟨rest, cur :: s.seen⟩)

/-- One `next()` call: emit the freshest popped identifier and push every
parent keyed by its committer timestamp. -/
def logStep (g : Bytes → CommitNode) (s : LogState) : Option (Bytes × LogState) :=
  match popFresh s.heap.length s with
  | none => none
  | some (cur, s') =>
      some (cur, ⟨s'.heap ++ (g cur).parents.map fun p => ((g p).ts, p), s'.seen⟩)

/-- `LogIterator::new`: seed the frontier with the start commit. -/
def logInit (g : Bytes → CommitNode) (start : Bytes) : LogState :=
  ⟨[((g start).ts, start)], []⟩

/-- Identifiers emitted by the first `n` calls of `next()` (a complete
run is any `n` large enough that the frontier empties). -/
def logRun (g : Bytes → CommitNode) : LogState → Nat → List Bytes
  | _, 0 => []
  | s, n + 1 =>
      match logStep g s with
      | none => []
      | some (cur, s') => cur :: logRun g s' n

/-- Timestamp (per the oracle) of each emitted identifier. -/
def logRunTs (g : Bytes → CommitNode) (s : LogState) (n : Nat) : List Nat :=
  (logRun g s n).map fun i => (g i).ts

/-- A non-increasing number sequence. -/
def nonIncr : List Nat → Bool
  | [] => true
  | [_] => true
  | a :: b :: r => b ≤ a && nonIncr (b :: r)

/-! ## Concrete inputs used by the claim theorems -/

/-- One discovered pack index: its pack identifier and two recorded
identifiers that share the first byte `0x00`, in sorted order. -/
def c1Items : List (Bytes × List (Bytes × Nat)) :=
  [(List.replicate 20 170,
    [(0 :: List.replicate 19 0, 12), (0 :: List.replicate 18 0 ++ [1], 400)])]

/-- The second (larger) identifier recorded by `c1Items`. -/
def c1Hash : Bytes := 0 :: List.replicate 18 0 ++ [1]

/-- Two sorted identifiers sharing first byte `0x01`. -/
def c2HashA : Bytes := 1 :: List.replicate 19 0

def c2HashB : Bytes := 1 :: List.replicate 18 0 ++ [1]

/-- A digest function under which `c2IdxBytes` is accepted at load: it
answers the stored trailing digest.  (The digest is abstract in the
embedding; only equality with the trailing bytes matters to `new`.) -/
def c2DigestFn : Bytes → Bytes := fun _ => List.replicate 20 9

/-- A well-formed version-2 pack index file: magic, version, fanout
`[0, 2, 2, …, 2]`, the two hashes, two CRCs, two small offsets, no
spill, a companion-pack identifier, and a trailing digest matching
`c2DigestFn`. -/
def c2IdxBytes : Bytes :=
  [255, 116, 79, 99, 0, 0, 0, 2] ++ [0, 0, 0, 0]
    ++ (List.replicate 255 ([0, 0, 0, 2])).flatten
    ++ c2HashA ++ c2HashB ++ List.replicate 8 0 ++ [0, 0, 0, 12, 0, 0, 0, 24]
    ++ List.replicate 20 7 ++ List.replicate 20 9

/-- The decompressed form of the loose object written for `"hello\n"` by
the write side (`blob 6\0hello\n`, 13 bytes). -/
def c3Stream : Bytes := ascii ("blob 6") ++ 0 :: ascii ("hello") ++ [10]

/-- A commit body whose `committer` value has the canonical
`Name <email> timestamp timezone` shape. -/
def c4Buf : Bytes :=
  ascii ("committer Thibault Polge <thibault@thb.lt> 1527025044 +0200")
    ++ [10, 10] ++ ascii ("Create first draft")

/-- A commit body with a repeated key (as any merge commit has with its
two `parent` records). -/
def c5Buf : Bytes := ascii ("a 1") ++ [10] ++ ascii ("a 2") ++ [10, 10] ++ ascii ("m")

/-- Two commits: `[0]` has committer timestamp 10 and parent `[1]`,
whose timestamp is 20 (commit clocks are not monotone along parent
edges). -/
def c6Oracle : Bytes → CommitNode := fun i =>
  if i = [0] then ⟨10, [[1]]⟩ else if i = [1] then ⟨20, []⟩ else ⟨0, []⟩

/-- An identifier whose loose object file exists. -/
def c7Id : Bytes := List.replicate 19 0 ++ [5]

/-- A repository state with no readable `objects/pack` directory (as
`Repository::init` itself leaves behind) but with the loose file for
`c7Id` present. -/
def c7FS : RepoFS := ⟨none, [c7Id]⟩

/-- The same repository with a readable pack directory holding one
index; the loose file is then found. -/
def c7FS' : RepoFS :=
  ⟨some [some (List.replicate 20 1, [(List.replicate 20 0, 7)])], [c7Id]⟩

/-- Everything of `c8IdxBytes` before the stored trailing digest: an
empty but structurally valid index preamble. -/
def c8Preamble : Bytes :=
  [255, 116, 79, 99, 0, 0, 0, 2] ++ List.replicate 1024 0 ++ List.replicate 20 7

/-- A stored trailing digest that differs from the streamed digest. -/
def c8Stored : Bytes := List.replicate 20 8

/-- The digest function: answers `replicate 20 9` for every stream, so
the stored digest of `c8IdxBytes` mismatches. -/
def c8DigestFn : Bytes → Bytes := fun _ => List.replicate 20 9

def c8IdxBytes : Bytes := c8Preamble ++ c8Stored

/-! ## Pack index file encoding -/

/-- Big-endian encoding of a 32-bit value. -/
def u32beBytes (x : Nat) : Bytes :=
  [x / 2 ^ 24 % 256, x / 2 ^ 16 % 256, x / 2 ^ 8 % 256, x % 256]

/-- Big-endian encoding of a 64-bit value. -/
def u64beBytes (x : Nat) : Bytes :=
  [x / 2 ^ 56 % 256, x / 2 ^ 48 % 256, x / 2 ^ 40 % 256, x / 2 ^ 32 % 256,
   x / 2 ^ 24 % 256, x / 2 ^ 16 % 256, x / 2 ^ 8 % 256, x % 256]

/-- A structurally well-formed version-2 index file up to (and
excluding) the stored trailing digest. -/
def encodePreamble (fanout : List Nat) (hashes : List Bytes) (crc : List Nat)
    (offsets : List Nat) (spill : List Nat) (packSha : Bytes) : Bytes :=
  [255, 116, 79, 99, 0, 0, 0, 2]
    ++ (fanout.map u32beBytes).flatten ++ hashes.flatten
    ++ (crc.map u32beBytes).flatten ++ (offsets.map u32beBytes).flatten
    ++ (spill.map u64beBytes).flatten ++ packSha

/-! ## Canonical kvlm inputs

A canonical commit/tag body is a sequence of records `key SP line0 NL
(SP line_j NL)*` followed by a blank line and the message.  Records are
described as `(key, lines)` pairs; parsing folds the continuation lines
into `joinSep [10] lines` and serialization splits them back. -/

/-- Join chunks with a separator (`List.intercalate` with controlled
equations). -/
def joinSep (sep : Bytes) : List Bytes → Bytes
  | [] => []
  | [l] => l
  | l :: ls => l ++ sep ++ joinSep sep ls

/-- The serialized form of one canonical record: the key, then each line
prefixed by one space and terminated by a newline. -/
def canonRec (r : Bytes × List Bytes) : Bytes :=
  r.1 ++ r.2.flatMap fun l => 32 :: l ++ [10]

/-- A canonical buffer: the records, a blank line, the message. -/
def canonBytes (rs : List (Bytes × List Bytes)) (msg : Bytes) : Bytes :=
  (rs.map canonRec).flatten ++ 10 :: msg

/-- The scan step of `kvlm_clean_value` as a pure function: drop the
space of every `\n ` pair, examining the byte after a dropped space
next. -/
def dropBoundarySpaces : Bytes → Bytes
  | [] => []
  | [x] => [x]
  | x :: y :: rest =>
      if x = 10 ∧ y = 32 then x :: dropBoundarySpaces rest
      else x :: dropBoundarySpaces (y :: rest)

/-- What one record's bytes look like after `kvlm_parse` has cleaned its
value in place: key, space, the folded value, then the leftover shifted
bytes the clean loop never overwrote, then the record's final newline. -/
def procRec (r : Bytes × List Bytes) : Bytes :=
  r.1 ++ [32] ++ joinSep [10] r.2
    ++ (joinSep [10, 32] r.2).drop (joinSep [10] r.2).length ++ [10]

/-- The whole buffer after parsing. -/
def procBytes (rs : List (Bytes × List Bytes)) (msg : Bytes) : Bytes :=
  (rs.map procRec).flatten ++ 10 :: msg

/-- The map entries produced for canonical records starting at absolute
offset `o`: each key maps to the range of its folded value. -/
def canonEntries : Nat → List (Bytes × List Bytes) → KvlmMap
  | _, [] => []
  | o, r :: rs =>
      (r.1, [(o + r.1.length + 1, o + r.1.length + 1 + (joinSep [10] r.2).length)])
        :: canonEntries (o + (canonRec r).length) rs

/-- Canonical-input side conditions: pairwise-distinct keys; keys
nonempty and free of spaces and newlines; at least one value line; the
value not the single empty line (the parser's empty-value quirk grabs
the following newline); newline-free lines. -/
def CanonRecords (rs : List (Bytes × List Bytes)) : Prop :=
  rs.Pairwise (fun a b => a.1 ≠ b.1)
    ∧ ∀ r ∈ rs, r.1 ≠ [] ∧ 10 ∉ r.1 ∧ 32 ∉ r.1 ∧ r.2 ≠ [] ∧ r.2 ≠ [[]]
        ∧ ∀ l ∈ r.2, 10 ∉ l

/-! ## C1 -/

/-- C1: the claim fails on the code.  `c1Hash` appears in the discovered
pack index (and in the merged hash array of the global index built by
`init_global_index`), yet `GlobalIndex::search` answers `None` instead of
`packed(pack, 400)`: the fanout fill never writes any entry for the
largest first byte present, so the search range `[fanout[0], fanout[0]]`
degenerates to `[0, 0]` and misses index 1. -/
theorem c1_global_index_misses_indexed_id :
    ((buildGlobalIndex c1Items).map fun g => decide (c1Hash ∈ g.hashes)) = .ok true
    ∧ ((buildGlobalIndex c1Items).map fun g => g.locations.length) = .ok 2
    ∧ ((buildGlobalIndex c1Items).bind fun g => g.search c1Hash) = .ok none := by
  decide

/-! ## C2 -/

/-- C2: the claim fails on the code.  The index file `c2IdxBytes` is
accepted at load and records `c2HashA` (the smallest identifier of the
`0x01` fanout bucket), yet `PackIndex::find` answers `None`: the search
range `[fanout[first - 1] + 1, fanout[first]]` is shifted one past the
claimed `[fanout[first - 1], fanout[first] - 1]`, so the first entry of
every bucket with first byte ≥ 1 is excluded.  (The bucket's other
entry, `c2HashB`, is still found.) -/
theorem c2_find_misses_first_bucket_entry :
    ((packIndexNew c2DigestFn c2IdxBytes).map fun x => decide (c2HashA ∈ x.hashes))
      = .ok true
    ∧ ((packIndexNew c2DigestFn c2IdxBytes).bind fun x => x.find c2HashA) = .ok none
    ∧ ((packIndexNew c2DigestFn c2IdxBytes).bind fun x => x.find c2HashB)
      = .ok (some 24) := by
  decide

/-! ## C3 -/

/-- C3: the claim fails on the code.  The reader starts with
`read_exact` on a 64-byte buffer, so every loose object whose
decompressed form is shorter than 64 bytes — here the well-formed
13-byte `blob 6\0hello\n` that the write side itself produces — fails
with a read error instead of returning the blob and its payload,
whatever the digest function and requested identifier. -/
theorem c3_small_loose_object_rejected :
    ∀ (hash : Bytes → Bytes) (sha1 : Bytes),
      readObjectFileData hash sha1 c3Stream = .err ("reading object file") :=
  fun _ _ => rfl

/-! ## C7 -/

/-- C7: the claim fails on the code.  In `c7FS` the loose file for
`c7Id` exists and no pack records it, yet `find_object_location` answers
`None`: `init_global_index` fails on the unreadable `objects/pack`
directory and `.ok()?` short-circuits before the loose path is ever
tested.  With a readable pack directory (`c7FS'`) the very same loose
file is found. -/
theorem c7_loose_fallback_short_circuited :
    findObjectLocation c7FS c7Id = .ok none
    ∧ findObjectLocation c7FS' c7Id = .ok (some .objectFile) := by
  decide

/-! ## C8 -/

/-- C8 counterexample: the claim promises a *bad-index* error result for
a trailing-digest mismatch, but `PackIndex::new` runs
`assert_eq!(computed, stored)` — on `c8IdxBytes` (whose stored digest
differs from the streamed digest) the load panics; no error result ever
reaches the caller. -/
theorem c8_counterexample_mismatch_panics :
    c8DigestFn c8Preamble ≠ c8Stored
    ∧ packIndexNew c8DigestFn c8IdxBytes = .panic
    ∧ ∀ e, packIndexNew c8DigestFn c8IdxBytes ≠ .err e := by
  refine ⟨by decide, by decide, fun e h => ?_⟩
  rw [show packIndexNew c8DigestFn c8IdxBytes = .panic from by decide] at h
  exact PRes.noConfusion h

theorem hrRead_exact (xs rest hashed : Bytes) :
    hrRead xs.length ⟨xs ++ rest, hashed⟩ = .ok (xs, ⟨rest, hashed ++ xs⟩) := by
  unfold hrRead
  rw [if_neg (by simp)]
  simp

theorem flatten_length_fixed {k : Nat} :
    ∀ (l : List Bytes), (∀ x ∈ l, x.length = k) → l.flatten.length = k * l.length := by
  intro l
  induction l with
  | nil => simp
  | cons x xs ih =>
      intro h
      simp only [List.flatten_cons, List.length_append, List.length_cons,
        h x (List.mem_cons_self ..), ih (fun y hy => h y (List.mem_cons_of_mem _ hy))]
      ring

theorem groups_flatten {k : Nat} :
    ∀ (l : List Bytes) (rest : Bytes), (∀ x ∈ l, x.length = k) →
      groups k l.length (l.flatten ++ rest) = l := by
  intro l
  induction l with
  | nil => intro rest _; rfl
  | cons x xs ih =>
      intro rest h
      have hx := h x (List.mem_cons_self ..)
      simp only [List.length_cons, groups, List.flatten_cons, List.append_assoc]
      rw [List.take_left' hx, List.drop_left' hx,
        ih rest (fun y hy => h y (List.mem_cons_of_mem _ hy))]

theorem beVal_u32beBytes {x : Nat} (h : x < 2 ^ 32) : beVal (u32beBytes x) = x := by
  simp only [beVal, u32beBytes, List.foldl]
  omega

theorem beVal_u64beBytes {x : Nat} (h : x < 2 ^ 64) : beVal (u64beBytes x) = x := by
  simp only [beVal, u64beBytes, List.foldl]
  omega

theorem mapBeVal_u32 :
    ∀ (l : List Nat), (∀ x ∈ l, x < 2 ^ 32) → (l.map u32beBytes).map beVal = l := by
  intro l
  induction l with
  | nil => intro _; rfl
  | cons x xs ih =>
      intro h
      simp only [List.map_cons, List.cons.injEq]
      exact ⟨beVal_u32beBytes (h x (List.mem_cons_self ..)),
        ih (fun y hy => h y (List.mem_cons_of_mem _ hy))⟩

theorem mapBeVal_u64 :
    ∀ (l : List Nat), (∀ x ∈ l, x < 2 ^ 64) → (l.map u64beBytes).map beVal = l := by
  intro l
  induction l with
  | nil => intro _; rfl
  | cons x xs ih =>
      intro h
      simp only [List.map_cons, List.cons.injEq]
      exact ⟨beVal_u64beBytes (h x (List.mem_cons_self ..)),
        ih (fun y hy => h y (List.mem_cons_of_mem _ hy))⟩

theorem readNU32be_encode (l : List Nat) (rest hashed : Bytes)
    (h : ∀ x ∈ l, x < 2 ^ 32) :
    readNU32be l.length ⟨(l.map u32beBytes).flatten ++ rest, hashed⟩
      = .ok (l, ⟨rest, hashed ++ (l.map u32beBytes).flatten⟩) := by
  have hfix : ∀ x ∈ l.map u32beBytes, x.length = 4 := by
    intro x hx
    obtain ⟨y, _, rfl⟩ := List.mem_map.mp hx
    rfl
  have hlen : (l.map u32beBytes).flatten.length = 4 * l.length := by
    rw [flatten_length_fixed _ hfix, List.length_map]
  have h1 : hrRead (4 * l.length) ⟨(l.map u32beBytes).flatten ++ rest, hashed⟩
      = .ok ((l.map u32beBytes).flatten,
          ⟨rest, hashed ++ (l.map u32beBytes).flatten⟩) := by
    rw [← hlen]
    exact hrRead_exact ..
  have h2 : groups 4 l.length (l.map u32beBytes).flatten = l.map u32beBytes := by
    have hm := groups_flatten (l.map u32beBytes) [] hfix
    rw [List.append_nil, List.length_map] at hm
    exact hm
  have h3 : (l.map u32beBytes).map beVal = l := mapBeVal_u32 l h
  unfold readNU32be
  rw [h1]
  simp only [PRes.map]
  rw [h2, h3]

theorem readNU64be_encode (l : List Nat) (rest hashed : Bytes)
    (h : ∀ x ∈ l, x < 2 ^ 64) :
    readNU64be l.length ⟨(l.map u64beBytes).flatten ++ rest, hashed⟩
      = .ok (l, ⟨rest, hashed ++ (l.map u64beBytes).flatten⟩) := by
  have hfix : ∀ x ∈ l.map u64beBytes, x.length = 8 := by
    intro x hx
    obtain ⟨y, _, rfl⟩ := List.mem_map.mp hx
    rfl
  have hlen : (l.map u64beBytes).flatten.length = 8 * l.length := by
    rw [flatten_length_fixed _ hfix, List.length_map]
  have h1 : hrRead (8 * l.length) ⟨(l.map u64beBytes).flatten ++ rest, hashed⟩
      = .ok ((l.map u64beBytes).flatten,
          ⟨rest, hashed ++ (l.map u64beBytes).flatten⟩) := by
    rw [← hlen]
    exact hrRead_exact ..
  have h2 : groups 8 l.length (l.map u64beBytes).flatten = l.map u64beBytes := by
    have hm := groups_flatten (l.map u64beBytes) [] hfix
    rw [List.append_nil, List.length_map] at hm
    exact hm
  have h3 : (l.map u64beBytes).map beVal = l := mapBeVal_u64 l h
  unfold readNU64be
  rw [h1]
  simp only [PRes.map]
  rw [h2, h3]

theorem readHashes_encode (l : List Bytes) (rest hashed : Bytes)
    (h : ∀ x ∈ l, x.length = 20) :
    readHashes l.length ⟨l.flatten ++ rest, hashed⟩
      = .ok (l, ⟨rest, hashed ++ l.flatten⟩) := by
  have hlen : l.flatten.length = 20 * l.length := flatten_length_fixed _ h
  have h1 : hrRead (20 * l.length) ⟨l.flatten ++ rest, hashed⟩
      = .ok (l.flatten, ⟨rest, hashed ++ l.flatten⟩) := by
    rw [← hlen]
    exact hrRead_exact ..
  have h2 : groups 20 l.length l.flatten = l := by
    have hm := groups_flatten l [] h
    rwa [List.append_nil] at hm
  unfold readHashes
  rw [h1]
  simp only [PRes.map]
  rw [h2]

theorem checkHeader_encode (rest : Bytes) :
    checkHeader ⟨[255, 116, 79, 99, 0, 0, 0, 2] ++ rest, []⟩
      = .ok ⟨rest, [255, 116, 79, 99, 0, 0, 0, 2]⟩ := by
  have e1 : hrRead 4 ⟨255 :: 116 :: 79 :: 99 :: 0 :: 0 :: 0 :: 2 :: rest, []⟩
      = .ok ([255, 116, 79, 99], ⟨0 :: 0 :: 0 :: 2 :: rest, [255, 116, 79, 99]⟩) := by
    simpa using hrRead_exact [255, 116, 79, 99] (0 :: 0 :: 0 :: 2 :: rest) []
  have e2 : hrRead 4 ⟨0 :: 0 :: 0 :: 2 :: rest, [255, 116, 79, 99]⟩
      = .ok ([0, 0, 0, 2], ⟨rest, [255, 116, 79, 99, 0, 0, 0, 2]⟩) := by
    simpa using hrRead_exact [0, 0, 0, 2] rest [255, 116, 79, 99]
  unfold checkHeader
  rw [show ([255, 116, 79, 99, 0, 0, 0, 2] : Bytes) ++ rest
      = 255 :: 116 :: 79 :: 99 :: 0 :: 0 :: 0 :: 2 :: rest from rfl, e1]
  simp only [PRes.bind, if_pos rfl]
  rw [e2]
  simp [PRes.bind, beVal]

/-- C8 amended: for every structurally well-formed index file — any
fanout, hash, CRC, offset, spill and companion-identifier sections of
consistent lengths — whose stored trailing digest differs from the
digest of all preceding bytes, `PackIndex::new` panics (the
`assert_eq!`); in particular it never returns a constructed index, but
the mismatch also never reaches the caller as a *bad-index* error
result. -/
theorem c8_amended_mismatch_never_constructs :
    ∀ (hash : Bytes → Bytes) (fanout : List Nat) (hashes : List Bytes)
      (crc offsets spill : List Nat) (packSha stored : Bytes),
      fanout.length = 256 → (∀ x ∈ fanout, x < 2 ^ 32) →
      hashes.length = fanout.getD 255 0 → (∀ x ∈ hashes, x.length = 20) →
      crc.length = hashes.length → (∀ x ∈ crc, x < 2 ^ 32) →
      offsets.length = hashes.length → (∀ x ∈ offsets, x < 2 ^ 32) →
      spill.length = (offsets.filter (fun o => o.testBit 31)).length →
      (∀ x ∈ spill, x < 2 ^ 64) →
      packSha.length = 20 → stored.length = 20 →
      stored ≠ hash (encodePreamble fanout hashes crc offsets spill packSha) →
      packIndexNew hash
        (encodePreamble fanout hashes crc offsets spill packSha ++ stored)
        = .panic := by
  intro hash fanout hashes crc offsets spill packSha stored
  intro hf hfv hn hhv hc hcv ho hov hs hsv hp hst hne
  unfold packIndexNew
  simp only [encodePreamble, List.append_assoc] at hne ⊢
  rw [checkHeader_encode]
  simp only [PRes.bind]
  rw [← hf, readNU32be_encode fanout _ _ hfv]
  simp only [PRes.bind]
  rw [← hn, readHashes_encode hashes _ _ hhv]
  simp only [PRes.bind]
  rw [← hc, readNU32be_encode crc _ _ hcv]
  simp only [PRes.bind]
  rw [show crc.length = offsets.length from hc.trans ho.symm,
    readNU32be_encode offsets _ _ hov]
  simp only [PRes.bind]
  rw [← hs, readNU64be_encode spill _ _ hsv]
  simp only [PRes.bind]
  rw [← hp, hrRead_exact]
  simp only [PRes.bind]
  have hall : ∀ h', hrRead stored.length ⟨stored, h'⟩ = .ok (stored, ⟨[], h' ++ stored⟩) := by
    intro h'
    have hx := hrRead_exact stored [] h'
    rwa [List.append_nil] at hx
  rw [hp, ← hst, hall]
  simp only [PRes.bind, List.nil_append, List.append_assoc]
  rw [if_neg (fun hcontra => hne (hcontra.symm))]

/-- C8 amended witness: the concrete empty-but-well-formed index with a
flipped trailing digest satisfies every side condition, and loading it
panics. -/
theorem c8_amended_witness :
    packIndexNew c8DigestFn
      (encodePreamble (List.replicate 256 0) [] [] [] [] (List.replicate 20 7)
        ++ List.replicate 20 8)
      = .panic :=
  c8_amended_mismatch_never_constructs c8DigestFn (List.replicate 256 0) [] [] [] []
    (List.replicate 20 7) (List.replicate 20 8)
    (by decide) (by decide) (by decide) (by decide) (by decide) (by decide)
    (by decide) (by decide) (by decide) (by decide) (by decide) (by decide)
    (by decide)

/-! ## List helpers for the canonical-input proofs -/

theorem set_self (l : Bytes) (i : Nat) (h : i < l.length) : l.set i l[i] = l := by
  induction l generalizing i with
  | nil => rfl
  | cons x xs ih =>
      cases i with
      | zero => rfl
      | succ j => simp only [List.set_cons_succ, List.getElem_cons_succ]; rw [ih]

theorem drop_append_add (l₁ l₂ : Bytes) (t : Nat) :
    (l₁ ++ l₂).drop (l₁.length + t) = l₂.drop t := by
  rw [List.drop_append]

theorem take_append_add (l₁ l₂ : Bytes) (t : Nat) :
    (l₁ ++ l₂).take (l₁.length + t) = l₁ ++ l₂.take t := by
  rw [List.take_append]

theorem idx?_ok {α : Type} (v : List α) (i : Nat) (h : i < v.length) :
    idx? v i = .ok v[i] := by
  simp [idx?, h]

theorem idx?_append (pre l : Bytes) (x : Nat) :
    idx? (pre ++ x :: l) pre.length = .ok x := by
  have h : pre.length < (pre ++ x :: l).length := by simp
  rw [idx?_ok _ _ h]
  congr 1
  simp [List.getElem_append_right]

theorem getD_append_add (pre l : Bytes) (j d : Nat) :
    (pre ++ l).getD (pre.length + j) d = l.getD j d := by
  simp [List.getD, List.getElem?_append_right]

theorem findIdx?_sep (c : Nat) :
    ∀ (xs rest : Bytes), c ∉ xs →
      (xs ++ c :: rest).findIdx? (· == c) = some xs.length := by
  intro xs
  induction xs with
  | nil => intro rest _; simp [List.findIdx?_cons]
  | cons x xs ih =>
      intro rest h
      have hx : ¬(x == c) = true := by
        simp only [beq_iff_eq]
        exact fun hc => h (hc ▸ List.mem_cons_self ..)
      simp only [List.cons_append, List.findIdx?_cons, hx, if_neg, Bool.false_eq_true,
        not_false_eq_true, List.findIdx?_succ,
        ih rest (fun hm => h (List.mem_cons_of_mem _ hm)), Option.map_some]
      rfl

theorem posFrom_drop (raw : Bytes) (i c : Nat) :
    posFrom raw i c = (raw.drop i).findIdx? (· == c) := rfl

/-! ## joinSep and dropBoundarySpaces -/

theorem joinSep_cons (sep : Bytes) (l : Bytes) (ls : List Bytes) (h : ls ≠ []) :
    joinSep sep (l :: ls) = l ++ sep ++ joinSep sep ls := by
  cases ls with
  | nil => exact absurd rfl h
  | cons y ys => rfl

theorem joinSep_length_le (ls : List Bytes) :
    (joinSep [10] ls).length ≤ (joinSep [10, 32] ls).length := by
  induction ls with
  | nil => exact Nat.le_refl _
  | cons l ls ih =>
      cases ls with
      | nil => exact Nat.le_refl _
      | cons y ys =>
          rw [joinSep_cons [10] l (y :: ys) (by simp),
            joinSep_cons [10, 32] l (y :: ys) (by simp)]
          simp only [List.length_append, List.length_cons]
          omega

theorem joinSep_ne_nil (ls : List Bytes) (h1 : ls ≠ []) (h2 : ls ≠ [[]]) :
    joinSep [10, 32] ls ≠ [] := by
  cases ls with
  | nil => exact absurd rfl h1
  | cons l ls' =>
      cases ls' with
      | nil =>
          cases l with
          | nil => exact absurd rfl h2
          | cons b bs => simp [joinSep]
      | cons y ys =>
          rw [joinSep_cons [10, 32] l (y :: ys) (by simp)]
          simp

theorem dropBoundarySpaces_no_nl :
    ∀ (l : Bytes), 10 ∉ l → dropBoundarySpaces l = l := by
  intro l
  induction l with
  | nil => intro _; rfl
  | cons x xs ih =>
      intro h
      cases xs with
      | nil => rfl
      | cons y ys =>
          have hx : x ≠ 10 := fun hc => h (hc ▸ List.mem_cons_self ..)
          rw [show dropBoundarySpaces (x :: y :: ys)
              = x :: dropBoundarySpaces (y :: ys) from by
            simp [dropBoundarySpaces, hx]]
          rw [ih (fun hm => h (List.mem_cons_of_mem _ hm))]

theorem dropBoundarySpaces_nlsp :
    ∀ (l rest : Bytes), 10 ∉ l →
      dropBoundarySpaces (l ++ 10 :: 32 :: rest) = l ++ 10 :: dropBoundarySpaces rest := by
  intro l
  induction l with
  | nil => intro rest _; simp [dropBoundarySpaces]
  | cons x xs ih =>
      intro rest h
      have hx : x ≠ 10 := fun hc => h (hc ▸ List.mem_cons_self ..)
      have htail := ih rest (fun hm => h (List.mem_cons_of_mem _ hm))
      cases xs with
      | nil =>
          simp only [List.nil_append] at htail
          rw [show (x :: [] ++ 10 :: 32 :: rest) = x :: 10 :: 32 :: rest from rfl]
          rw [show dropBoundarySpaces (x :: 10 :: 32 :: rest)
              = x :: dropBoundarySpaces (10 :: 32 :: rest) from by
            simp [dropBoundarySpaces, hx]]
          rw [htail]
          rfl
      | cons y ys =>
          rw [show (x :: y :: ys ++ 10 :: 32 :: rest)
              = x :: (y :: ys ++ 10 :: 32 :: rest) from rfl]
          rw [show dropBoundarySpaces (x :: (y :: ys ++ 10 :: 32 :: rest))
              = x :: dropBoundarySpaces (y :: ys ++ 10 :: 32 :: rest) from by
            simp [dropBoundarySpaces, hx]]
          rw [htail]
          rfl

theorem dropBoundarySpaces_joinSep :
    ∀ (ls : List Bytes), (∀ l ∈ ls, 10 ∉ l) →
      dropBoundarySpaces (joinSep [10, 32] ls) = joinSep [10] ls := by
  intro ls
  induction ls with
  | nil => intro _; rfl
  | cons l ls' ih =>
      intro h
      cases ls' with
      | nil => exact dropBoundarySpaces_no_nl l (h l (List.mem_cons_self ..))
      | cons y ys =>
          rw [joinSep_cons [10, 32] l (y :: ys) (by simp),
            joinSep_cons [10] l (y :: ys) (by simp)]
          rw [List.append_assoc, show ([10, 32] : Bytes) ++ joinSep [10, 32] (y :: ys)
              = 10 :: 32 :: joinSep [10, 32] (y :: ys) from rfl]
          rw [dropBoundarySpaces_nlsp l _ (h l (List.mem_cons_self ..)),
            ih (fun x hx => h x (List.mem_cons_of_mem _ hx))]
          simp

theorem getD_of_drop (raw : Bytes) (p j d : Nat) :
    raw.getD (p + j) d = (raw.drop p).getD j d := by
  simp [List.getD, List.getElem?_drop]

theorem cons_joinSep (c : Nat) (sep : Bytes) (y : Bytes) (ys : List Bytes) :
    c :: joinSep sep (y :: ys) = joinSep sep ((c :: y) :: ys) := by
  cases ys with
  | nil => rfl
  | cons z zs =>
      rw [joinSep_cons sep y (z :: zs) (by simp),
        joinSep_cons sep (c :: y) (z :: zs) (by simp)]
      simp

/-- The value-scanning loop on a canonical record: starting at the
value's first byte, it stops exactly at the record's final newline. -/
theorem findEnd_canon :
    ∀ (fuel : Nat) (lines : List Bytes) (raw : Bytes) (p : Nat) (after : Bytes),
      lines ≠ [] → (∀ l ∈ lines, 10 ∉ l) →
      (after = [] ∨ after.headD 0 ≠ 32) →
      raw.drop p = joinSep [10, 32] lines ++ 10 :: after →
      lines.length ≤ fuel →
      findEnd fuel raw p = .ok (p + (joinSep [10, 32] lines).length) := by
  intro fuel
  induction fuel with
  | zero =>
      intro lines raw p after hne _ _ _ hfuel
      cases lines with
      | nil => exact absurd rfl hne
      | cons l ls => simp at hfuel
  | succ f ih =>
      intro lines raw p after hne hnl hafter hdrop hfuel
      have hlenraw : raw.length - p = (joinSep [10, 32] lines).length + 1 + after.length := by
        rw [← List.length_drop, hdrop]
        simp only [List.length_append, List.length_cons]
        omega
      have hp : p < raw.length := by
        by_contra hc
        push_neg at hc
        rw [List.drop_eq_nil_of_le hc] at hdrop
        simp at hdrop
      cases lines with
      | nil => exact absurd rfl hne
      | cons l ls =>
          have hl : 10 ∉ l := hnl l (List.mem_cons_self ..)
          cases ls with
          | nil =>
              have hj : joinSep [10, 32] [l] = l := rfl
              rw [hj] at hdrop hlenraw ⊢
              have hpos : posFrom raw p 10 = some l.length := by
                rw [posFrom_drop, hdrop]
                exact findIdx?_sep 10 l after hl
              unfold findEnd
              rw [hpos]
              dsimp only
              cases after with
              | nil =>
                  rw [if_pos (by simp only [List.length_nil] at hlenraw; omega)]
              | cons a as =>
                  have ha : a ≠ 32 := by
                    rcases hafter with h | h
                    · exact absurd h (by simp)
                    · simpa using h
                  rw [if_neg (by simp only [List.length_cons] at hlenraw; omega)]
                  have hget : raw.getD (p + l.length + 1) 0 = a := by
                    rw [show p + l.length + 1 = p + (l.length + 1) from by omega,
                      getD_of_drop, hdrop,
                      show l ++ 10 :: a :: as = (l ++ [10]) ++ a :: as from by simp,
                      show l.length + 1 = (l ++ [10]).length + 0 from by simp,
                      getD_append_add]
                    rfl
                  rw [if_neg (by rw [hget]; exact ha)]
          | cons y ys =>
              have hJ : joinSep [10, 32] (l :: y :: ys)
                  = l ++ 10 :: 32 :: joinSep [10, 32] (y :: ys) := by
                rw [joinSep_cons [10, 32] l (y :: ys) (by simp)]
                simp
              rw [hJ] at hdrop hlenraw ⊢
              rw [List.append_assoc] at hdrop
              simp only [List.cons_append] at hdrop
              have hpos : posFrom raw p 10 = some l.length := by
                rw [posFrom_drop, hdrop]
                exact findIdx?_sep 10 l _ hl
              unfold findEnd
              rw [hpos]
              dsimp only
              rw [if_neg (by
                simp only [List.length_append, List.length_cons] at hlenraw
                omega)]
              have hget : raw.getD (p + l.length + 1) 0 = 32 := by
                rw [show p + l.length + 1 = p + (l.length + 1) from by omega,
                  getD_of_drop, hdrop,
                  show l ++ 10 :: 32 :: (joinSep [10, 32] (y :: ys) ++ 10 :: after)
                    = (l ++ [10]) ++ 32 :: (joinSep [10, 32] (y :: ys) ++ 10 :: after)
                    from by simp,
                  show l.length + 1 = (l ++ [10]).length + 0 from by simp,
                  getD_append_add]
                rfl
              rw [if_pos (by rw [hget])]
              have hih := ih ((32 :: y) :: ys) raw (p + l.length + 1) after
                (by simp)
                (by
                  intro x hx
                  rcases List.mem_cons.mp hx with h | h
                  · subst h
                    intro hc
                    rcases List.mem_cons.mp hc with h' | h'
                    · exact absurd h'.symm (by norm_num)
                    · exact hnl y (by simp) h'
                  · exact hnl x (by simp [h]))
                hafter
                (by
                  have hd : raw.drop (p + l.length + 1) = (raw.drop p).drop (l.length + 1) := by
                    rw [List.drop_drop]
                    congr 1
                    try omega
                  rw [hd, hdrop,
                    show l ++ 10 :: 32 :: (joinSep [10, 32] (y :: ys) ++ 10 :: after)
                      = (l ++ [10]) ++ 32 :: (joinSep [10, 32] (y :: ys) ++ 10 :: after)
                      from by simp,
                    show l.length + 1 = (l ++ [10]).length + 0 from by simp,
                    drop_append_add, ← cons_joinSep]
                  simp)
                (by simp at hfuel ⊢; omega)
              rw [hih, ← cons_joinSep]
              congr 1
              simp only [List.length_append, List.length_cons]
              omega

/-! ## The clean loop on a value region -/

theorem slice_drop_take (vec : Bytes) (j e : Nat) :
    slice vec j e = (vec.drop j).take (e - j) := by
  rw [slice, List.drop_take]

theorem slice_cons (vec : Bytes) (j e : Nat) (h1 : j < e) (h2 : e ≤ vec.length) :
    slice vec j e = vec[j] :: slice vec (j + 1) e := by
  have hj : j < vec.length := by omega
  rw [slice_drop_take, slice_drop_take, List.drop_eq_getElem_cons hj]
  rw [show e - j = (e - (j + 1)) + 1 from by omega]
  rfl

theorem dropBoundary_short (l : Bytes) (h : l.length ≤ 1) :
    dropBoundarySpaces l = l := by
  cases l with
  | nil => rfl
  | cons x t =>
      cases t with
      | nil => rfl
      | cons y u => simp at h

theorem dropBoundary_head :
    ∀ (x : Nat) (t : Bytes),
      dropBoundarySpaces (x :: t) = x :: (dropBoundarySpaces (x :: t)).drop 1 := by
  intro x t
  cases t with
  | nil => rfl
  | cons y u =>
      by_cases h : x = 10 ∧ y = 32
      · rw [show dropBoundarySpaces (x :: y :: u) = x :: dropBoundarySpaces u from by
          simp [dropBoundarySpaces, h]]
        rfl
      · rw [show dropBoundarySpaces (x :: y :: u) = x :: dropBoundarySpaces (y :: u) from by
          simp only [dropBoundarySpaces, if_neg h]]
        rfl

theorem take_succ_set (vec : Bytes) (i c : Nat) (h : i < vec.length) :
    (vec.set i c).take (i + 1) = vec.take i ++ [c] := by
  induction vec generalizing i with
  | nil => simp at h
  | cons x xs ih =>
      cases i with
      | zero => rfl
      | succ j =>
          simp only [List.set_cons_succ, List.take_succ_cons, List.cons_append]
          rw [ih j (by simpa using h)]

/-- One full run of the `kvlm_clean_value` loop: starting with write
cursor `i` and scan window beginning at `i + skip - 1`, it emits the
boundary-space-dropped suffix (minus its first byte, which is already in
place), overwriting the buffer from `i`, and returns the write cursor's
final position. -/
theorem cleanGo_run :
    ∀ (n : Nat) (vec : Bytes) (e i skip : Nat),
      n = e - i → 1 ≤ i → e ≤ vec.length →
      cleanGo n vec e i skip
        = .ok (vec.take i
                 ++ (dropBoundarySpaces (slice vec (i + skip - 1) e)).drop 1
                 ++ vec.drop
                   (i + ((dropBoundarySpaces (slice vec (i + skip - 1) e)).drop 1).length),
               i + ((dropBoundarySpaces (slice vec (i + skip - 1) e)).drop 1).length) := by
  intro n
  induction n with
  | zero =>
      intro vec e i skip hn hi he
      have hie : e ≤ i := by omega
      have hout : (dropBoundarySpaces (slice vec (i + skip - 1) e)).drop 1 = [] := by
        have hlen : (slice vec (i + skip - 1) e).length ≤ 1 := by
          rw [slice_drop_take]
          simp only [List.length_take, List.length_drop]
          omega
        rw [dropBoundary_short _ hlen]
        cases hsl : slice vec (i + skip - 1) e with
        | nil => rfl
        | cons x t =>
            have := hsl ▸ hlen
            simp only [List.length_cons] at this
            have ht : t = [] := List.length_eq_zero.mp (by omega)
            rw [ht]
            rfl
      rw [hout]
      simp only [cleanGo, List.length_nil, Nat.add_zero, List.append_nil,
        List.nil_append, List.take_append_drop]
  | succ n ih =>
      intro vec e i skip hn hi he
      by_cases hbreak : i + skip ≥ e
      · have hout : (dropBoundarySpaces (slice vec (i + skip - 1) e)).drop 1 = [] := by
          have hlen : (slice vec (i + skip - 1) e).length ≤ 1 := by
            rw [slice_drop_take]
            simp only [List.length_take, List.length_drop]
            omega
          rw [dropBoundary_short _ hlen]
          cases hsl : slice vec (i + skip - 1) e with
          | nil => rfl
          | cons x t =>
              have := hsl ▸ hlen
              simp only [List.length_cons] at this
              have ht : t = [] := List.length_eq_zero.mp (by omega)
              rw [ht]
              rfl
        rw [hout]
        simp only [cleanGo, if_pos hbreak, List.length_nil, Nat.add_zero,
          List.append_nil, List.nil_append, List.take_append_drop]
      · push_neg at hbreak
        have hjlt : i + skip < vec.length := by omega
        have hjlt1 : i + skip - 1 < vec.length := by omega
        have ha : idx? vec (i + skip - 1) = .ok (vec[i + skip - 1]) :=
          idx?_ok _ _ hjlt1
        have hb : idx? vec (i + skip) = .ok (vec[i + skip]) := idx?_ok _ _ hjlt
        have hsl1 : slice vec (i + skip - 1) e
            = vec[i + skip - 1] :: slice vec (i + skip) e := by
          have := slice_cons vec (i + skip - 1) e (by omega) he
          rwa [show i + skip - 1 + 1 = i + skip from by omega] at this
        rw [show cleanGo (n + 1) vec e i skip
            = (if i + skip ≥ e then .ok (vec, i)
              else
                (idx? vec (i + skip - 1)).bind fun a =>
                (idx? vec (i + skip)).bind fun b =>
                let skip' := if a = 10 ∧ b = 32 then skip + 1 else skip
                if i + skip' ≥ e then .ok (vec, i)
                else
                  (idx? vec (i + skip')).bind fun c =>
                  cleanGo n (vec.set i c) e (i + 1) skip')
            from rfl]
        rw [if_neg (by omega), ha, hb]
        simp only [PRes.bind]
        by_cases hbd : vec[i + skip - 1] = 10 ∧ vec[i + skip] = 32
        · -- boundary: the space at i + skip is dropped
          rw [if_pos hbd]
          by_cases hend : i + (skip + 1) ≥ e
          · rw [if_pos hend]
            have hsl2 : slice vec (i + skip) e
                = vec[i + skip] :: slice vec (i + skip + 1) e :=
              slice_cons vec (i + skip) e (by omega) he
            have hsl3 : slice vec (i + skip + 1) e = [] := by
              rw [slice_drop_take]
              rw [show e - (i + skip + 1) = 0 from by omega]
              rfl
            have hout : (dropBoundarySpaces (slice vec (i + skip - 1) e)).drop 1 = [] := by
              rw [hsl1, hsl2, hsl3, hbd.1, hbd.2]
              rfl
            rw [hout]
            simp only [List.length_nil, Nat.add_zero, List.append_nil,
              List.nil_append, List.take_append_drop]
          · push_neg at hend
            have hclt : i + (skip + 1) < vec.length := by omega
            have hc : idx? vec (i + (skip + 1)) = .ok (vec[i + (skip + 1)]) :=
              idx?_ok _ _ hclt
            rw [if_neg (by omega), hc]
            simp only [PRes.bind]
            have hihx := ih (vec.set i (vec[i + (skip + 1)])) e (i + 1) (skip + 1)
              (by omega) (by omega) (by simpa using he)
            rw [hihx]
            -- identify the recursive call's slice with the outer one
            have hslset : slice (vec.set i (vec[i + (skip + 1)])) (i + 1 + (skip + 1) - 1) e
                = slice vec (i + skip + 1) e := by
              rw [show i + 1 + (skip + 1) - 1 = i + skip + 1 from by omega,
                slice_drop_take, slice_drop_take,
                List.drop_set_of_lt _ _ (by omega)]
            have hsl2 : slice vec (i + skip) e
                = vec[i + skip] :: slice vec (i + skip + 1) e :=
              slice_cons vec (i + skip) e (by omega) he
            have hsl3 : slice vec (i + skip + 1) e
                = vec[i + (skip + 1)] :: slice vec (i + skip + 2) e := by
              have h := slice_cons vec (i + skip + 1) e (by omega) he
              rw [show i + skip + 1 + 1 = i + skip + 2 from by omega] at h
              rw [h]
              have hxeq : vec[i + skip + 1] = vec[i + (skip + 1)] := by
                simp only [Nat.add_assoc]
              rw [hxeq]
            have hout : (dropBoundarySpaces (slice vec (i + skip - 1) e)).drop 1
                = vec[i + (skip + 1)]
                    :: (dropBoundarySpaces (slice vec (i + skip + 1) e)).drop 1 := by
              rw [hsl1, hsl2, hbd.1, hbd.2,
                show dropBoundarySpaces (10 :: 32 :: slice vec (i + skip + 1) e)
                  = 10 :: dropBoundarySpaces (slice vec (i + skip + 1) e) from by
                  simp [dropBoundarySpaces],
                List.drop_one, List.tail_cons]
              conv_lhs => rw [hsl3, dropBoundary_head]
              rw [hsl3]
            rw [hslset, hout]
            simp only [List.length_cons]
            rw [take_succ_set vec i _ (by omega),
              List.drop_set_of_lt _ _ (by omega)]
            rw [show i + 1 + ((dropBoundarySpaces (slice vec (i + skip + 1) e)).drop 1).length
                = i + (((dropBoundarySpaces (slice vec (i + skip + 1) e)).drop 1).length + 1)
                from by omega]
            simp [List.append_assoc]
        · -- not a boundary: the byte at the scan position is copied down
          rw [if_neg hbd]
          rw [if_neg (by omega), hb]
          simp only [PRes.bind]
          have hihx := ih (vec.set i (vec[i + skip])) e (i + 1) skip
            (by omega) (by omega) (by simpa using he)
          rw [hihx]
          have hslset : slice (vec.set i (vec[i + skip])) (i + 1 + skip - 1) e
              = slice vec (i + skip) e := by
            by_cases hsk : skip = 0
            · subst hsk
              rw [show vec[i + 0] = vec[i] from rfl]
              rw [set_self]
              congr 1
            · rw [show i + 1 + skip - 1 = i + skip from by omega,
                slice_drop_take, slice_drop_take,
                List.drop_set_of_lt _ _ (by omega)]
          have hout : (dropBoundarySpaces (slice vec (i + skip - 1) e)).drop 1
              = vec[i + skip]
                  :: (dropBoundarySpaces (slice vec (i + skip) e)).drop 1 := by
            have hsl2 : slice vec (i + skip) e
                = vec[i + skip] :: slice vec (i + skip + 1) e :=
              slice_cons vec (i + skip) e (by omega) he
            rw [hsl1]
            conv_lhs => rw [hsl2]
            rw [show dropBoundarySpaces (vec[i + skip - 1] :: vec[i + skip]
                  :: slice vec (i + skip + 1) e)
                = vec[i + skip - 1]
                    :: dropBoundarySpaces (vec[i + skip] :: slice vec (i + skip + 1) e)
                from by simp only [dropBoundarySpaces, if_neg hbd],
              List.drop_one, List.tail_cons]
            rw [dropBoundary_head (vec[i + skip]) (slice vec (i + skip + 1) e)]
            rw [← hsl2]
          rw [hslset, hout]
          simp only [List.length_cons]
          rw [take_succ_set vec i _ (by omega),
            List.drop_set_of_lt _ _ (by omega)]
          rw [show i + 1 + ((dropBoundarySpaces (slice vec (i + skip) e)).drop 1).length
              = i + (((dropBoundarySpaces (slice vec (i + skip) e)).drop 1).length + 1)
              from by omega]
          simp [List.append_assoc]

/-! ## Canonical records: shape lemmas -/

theorem flatMap_lines (ls : List Bytes) (h : ls ≠ []) :
    (ls.flatMap fun l => 32 :: l ++ [10]) = 32 :: joinSep [10, 32] ls ++ [10] := by
  induction ls with
  | nil => exact absurd rfl h
  | cons l ls ih =>
      cases ls with
      | nil => simp [joinSep]
      | cons y ys =>
          rw [List.flatMap_cons, ih (by simp), joinSep_cons [10, 32] l (y :: ys) (by simp)]
          simp

theorem lines_le_joinSep (ls : List Bytes) :
    ls.length ≤ (joinSep [10, 32] ls).length + 1 := by
  induction ls with
  | nil => simp
  | cons l ls ih =>
      cases ls with
      | nil => simp [joinSep]
      | cons y ys =>
          rw [joinSep_cons [10, 32] l (y :: ys) (by simp)]
          simp only [List.length_cons, List.length_append] at ih ⊢
          omega

theorem joinSep10_ne_nil (ls : List Bytes) (h1 : ls ≠ []) (h2 : ls ≠ [[]]) :
    joinSep [10] ls ≠ [] := by
  cases ls with
  | nil => exact absurd rfl h1
  | cons l ls' =>
      cases ls' with
      | nil =>
          cases l with
          | nil => exact absurd rfl h2
          | cons b bs => simp [joinSep]
      | cons y ys =>
          rw [joinSep_cons [10] l (y :: ys) (by simp)]
          simp

theorem canonBytes_cons (r : Bytes × List Bytes) (rs : List (Bytes × List Bytes)) (msg : Bytes) :
    canonBytes (r :: rs) msg = canonRec r ++ canonBytes rs msg := by
  simp [canonBytes, List.append_assoc]

theorem procBytes_cons (r : Bytes × List Bytes) (rs : List (Bytes × List Bytes)) (msg : Bytes) :
    procBytes (r :: rs) msg = procRec r ++ procBytes rs msg := by
  simp [procBytes, List.append_assoc]

theorem procRec_length (r : Bytes × List Bytes) (h : r.2 ≠ []) :
    (procRec r).length = (canonRec r).length := by
  rw [procRec, canonRec, flatMap_lines r.2 h]
  have := joinSep_length_le r.2
  simp only [List.length_append, List.length_cons, List.length_nil, List.length_drop]
  omega

theorem canonBytes_headD_ne_32 (rs : List (Bytes × List Bytes)) (msg : Bytes)
    (h : ∀ r ∈ rs, r.1 ≠ []) (h32 : ∀ r ∈ rs, 32 ∉ r.1) :
    (canonBytes rs msg).headD 0 ≠ 32 := by
  cases rs with
  | nil => simp [canonBytes]
  | cons r rs' =>
      rw [canonBytes_cons]
      obtain ⟨kh, kt, hk⟩ : ∃ kh kt, r.1 = kh :: kt := by
        cases hr : r.1 with
        | nil => exact absurd hr (h r (List.mem_cons_self ..))
        | cons a b => exact ⟨a, b, rfl⟩
      rw [canonRec, hk]
      simp only [List.cons_append, List.headD_cons]
      intro hc
      exact h32 r (List.mem_cons_self ..) (by rw [hk, ← hc]; exact List.mem_cons_self ..)

theorem rs_length_le_flatten (rs : List (Bytes × List Bytes))
    (h : ∀ r ∈ rs, r.1 ≠ []) :
    rs.length ≤ ((rs.map canonRec).flatten).length := by
  induction rs with
  | nil => simp
  | cons r rs' ih =>
      simp only [List.map_cons, List.flatten_cons, List.length_cons, List.length_append]
      have h1 : 1 ≤ (canonRec r).length := by
        have hne : r.1 ≠ [] := h r (List.mem_cons_self ..)
        cases hr : r.1 with
        | nil => exact absurd hr hne
        | cons a b => rw [canonRec, hr]; simp
      have h2 := ih (fun x hx => h x (List.mem_cons_of_mem _ hx))
      omega

/-! ## OrderedHashMap lemmas -/

theorem mapGet_cons (k' : Bytes) (vs' : List KvRange) (rest : KvlmMap) (k : Bytes) :
    mapGet ((k', vs') :: rest) k = if k' = k then some vs' else mapGet rest k := by
  by_cases hk : k' = k
  · simp [mapGet, List.find?_cons, hk]
  · simp [mapGet, List.find?_cons, hk]

theorem mapPush_fresh :
    ∀ (m : KvlmMap) (k : Bytes) (v : KvRange),
      mapGet m k = none → mapPush m k v = m ++ [(k, [v])] := by
  intro m
  induction m with
  | nil => intro k v _; rfl
  | cons p rest ih =>
      intro k v h
      obtain ⟨k', vs'⟩ := p
      rw [mapGet_cons] at h
      by_cases hk : k' = k
      · rw [if_pos hk] at h; simp at h
      · rw [if_neg hk] at h
        rw [mapPush, if_neg hk, ih k v h]
        rfl

theorem mapInsert_fresh :
    ∀ (m : KvlmMap) (k : Bytes) (vs : List KvRange),
      mapGet m k = none → mapInsert m k vs = m ++ [(k, vs)] := by
  intro m
  induction m with
  | nil => intro k vs _; rfl
  | cons p rest ih =>
      intro k vs h
      obtain ⟨k', vs'⟩ := p
      rw [mapGet_cons] at h
      by_cases hk : k' = k
      · rw [if_pos hk] at h; simp at h
      · rw [if_neg hk] at h
        rw [mapInsert, if_neg hk, ih k vs h]
        rfl

theorem mapGet_append (m₁ m₂ : KvlmMap) (k : Bytes) (h : mapGet m₁ k = none) :
    mapGet (m₁ ++ m₂) k = mapGet m₂ k := by
  have h1 : m₁.find? (fun p => p.1 == k) = none := by
    cases hf : m₁.find? (fun p => p.1 == k) with
    | none => rfl
    | some q => rw [mapGet, hf] at h; simp at h
  rw [mapGet, List.find?_append, h1]
  rfl

theorem mapGet_single_ne (k : Bytes) (vs : List KvRange) (k' : Bytes) (h : k ≠ k') :
    mapGet [(k, vs)] k' = none := by
  rw [mapGet_cons, if_neg h]
  rfl

/-! ## Slicing at an offset -/

theorem drop_at (pre rest : Bytes) : (pre ++ rest).drop pre.length = rest := by
  have h := drop_append_add pre rest 0
  rw [Nat.add_zero, List.drop_zero] at h
  exact h

theorem slice_at (pre mid rest : Bytes) :
    slice (pre ++ (mid ++ rest)) pre.length (pre.length + mid.length) = mid := by
  rw [slice_drop_take,
    show pre.length + mid.length - pre.length = mid.length from by omega,
    drop_at]
  exact List.take_left' rfl

/-! ## splitOn undoes the newline join -/

theorem splitOn_joinSep :
    ∀ (ls : List Bytes), ls ≠ [] → (∀ l ∈ ls, 10 ∉ l) →
      (joinSep [10] ls).splitOn 10 = ls := by
  intro ls
  induction ls with
  | nil => intro h _; exact absurd rfl h
  | cons l ls' ih =>
      intro _ hnl
      cases ls' with
      | nil =>
          show (joinSep [10] [l]).splitOn 10 = [l]
          rw [show joinSep [10] [l] = l from rfl]
          simp only [List.splitOn]
          exact List.splitOnP_eq_single _ _ (fun x hx => by
            simp only [beq_iff_eq]
            exact fun hc => hnl l (List.mem_cons_self ..) (hc ▸ hx))
      | cons y ys =>
          rw [joinSep_cons [10] l (y :: ys) (by simp), List.append_assoc,
            show ([10] : Bytes) ++ joinSep [10] (y :: ys)
              = 10 :: joinSep [10] (y :: ys) from rfl]
          simp only [List.splitOn]
          rw [List.splitOnP_first _ _ (fun x hx => by
              simp only [beq_iff_eq]
              exact fun hc => hnl l (List.mem_cons_self ..) (hc ▸ hx)) 10 (by simp) _]
          have hrec := ih (by simp) (fun x hx => hnl x (List.mem_cons_of_mem _ hx))
          simp only [List.splitOn] at hrec
          rw [hrec]

/-! ## One step of kvlm_parse_rec, generically -/

theorem parseRec_msg (f : Nat) (raw : Bytes) (map : KvlmMap) (i : Nat)
    (hne : ¬(raw.length = i)) (hidx : idx? raw i = .ok 10) :
    kvlmParseRec (f + 1) raw map i
      = .ok (raw, mapInsert map [] [(i + 1, raw.length)]) := by
  rw [show kvlmParseRec (f + 1) raw map i
      = (if raw.length = i then .ok (raw, map)
        else
          (idx? raw i).bind fun b =>
          if b = 10 then .ok (raw, mapInsert map [] [(i + 1, raw.length)])
          else
            match posFrom raw i 32 with
            | none => .err ("kvlm missing space")
            | some k =>
                let spc := i + k
                let key := slice raw i spc
                (findEnd raw.length raw (spc + 1)).bind fun e =>
                (kvlmCleanValue raw (spc + 1) e).bind fun cl =>
                kvlmParseRec f cl.1 (mapPush map key (spc + 1, cl.2)) (e + 1))
      from rfl]
  rw [if_neg hne, hidx]
  simp only [PRes.bind]
  rw [if_pos trivial]

theorem parseRec_step (f : Nat) (raw : Bytes) (map : KvlmMap) (i : Nat)
    (hne : ¬(raw.length = i)) (kh : Nat) (hidx : idx? raw i = .ok kh) (h10 : ¬(kh = 10))
    (kl : Nat) (hpos : posFrom raw i 32 = some kl) :
    kvlmParseRec (f + 1) raw map i
      = (findEnd raw.length raw (i + kl + 1)).bind fun e =>
        (kvlmCleanValue raw (i + kl + 1) e).bind fun cl =>
        kvlmParseRec f cl.1 (mapPush map (slice raw i (i + kl)) (i + kl + 1, cl.2)) (e + 1) := by
  rw [show kvlmParseRec (f + 1) raw map i
      = (if raw.length = i then .ok (raw, map)
        else
          (idx? raw i).bind fun b =>
          if b = 10 then .ok (raw, mapInsert map [] [(i + 1, raw.length)])
          else
            match posFrom raw i 32 with
            | none => .err ("kvlm missing space")
            | some k =>
                let spc := i + k
                let key := slice raw i spc
                (findEnd raw.length raw (spc + 1)).bind fun e =>
                (kvlmCleanValue raw (spc + 1) e).bind fun cl =>
                kvlmParseRec f cl.1 (mapPush map key (spc + 1, cl.2)) (e + 1))
      from rfl]
  rw [if_neg hne, hidx]
  simp only [PRes.bind]
  rw [if_neg h10, hpos]

/-- `kvlm_clean_value` on a valid in-bounds region, via `cleanGo_run`. -/
theorem cleanValue_run (vec : Bytes) (s e : Nat) (hs : s < vec.length) (he : e ≤ vec.length) :
    kvlmCleanValue vec s e
      = .ok (vec.take (s + 1) ++ (dropBoundarySpaces (slice vec s e)).drop 1
               ++ vec.drop (s + 1 + ((dropBoundarySpaces (slice vec s e)).drop 1).length),
             s + 1 + ((dropBoundarySpaces (slice vec s e)).drop 1).length) := by
  simp only [kvlmCleanValue]
  rw [if_neg (by omega)]
  have h := cleanGo_run (e - (s + 1)) vec e (s + 1) 0 rfl (by omega) he
  rw [show s + 1 + 0 - 1 = s from by omega] at h
  rw [h]

/-- `kvlm_parse_rec` on a canonical buffer: each record becomes one fresh
map entry whose range selects the newline-folded value, the buffer is
rewritten record by record into its processed form, and the message is
stored last under the empty key. -/
theorem parseRec_canon :
    ∀ (rs : List (Bytes × List Bytes)) (f : Nat) (pre : Bytes) (map : KvlmMap) (msg : Bytes),
      (∀ r ∈ rs, r.1 ≠ [] ∧ 10 ∉ r.1 ∧ 32 ∉ r.1 ∧ r.2 ≠ [] ∧ r.2 ≠ [[]] ∧ ∀ l ∈ r.2, 10 ∉ l) →
      List.Pairwise (fun a b => a.1 ≠ b.1) rs →
      (∀ r ∈ rs, mapGet map r.1 = none) →
      mapGet map [] = none →
      rs.length + 1 ≤ f →
      kvlmParseRec f (pre ++ canonBytes rs msg) map pre.length
        = .ok (pre ++ procBytes rs msg,
            (map ++ canonEntries pre.length rs)
              ++ [([], [((pre ++ (rs.map procRec).flatten).length + 1,
                         (pre ++ procBytes rs msg).length)])]) := by
  intro rs
  induction rs with
  | nil =>
      intro f pre map msg _ _ _ hnil hf
      obtain ⟨f', rfl⟩ : ∃ f', f = f' + 1 := ⟨f - 1, by omega⟩
      have hcb : canonBytes [] msg = 10 :: msg := rfl
      have hne : ¬((pre ++ canonBytes [] msg).length = pre.length) := by
        rw [hcb]; simp
      have hidx : idx? (pre ++ canonBytes [] msg) pre.length = .ok 10 := by
        rw [hcb]; exact idx?_append pre msg 10
      rw [parseRec_msg f' _ map pre.length hne hidx,
        mapInsert_fresh map [] _ hnil]
      have hpb : procBytes [] msg = 10 :: msg := rfl
      rw [hcb, hpb]
      simp [canonEntries]
  | cons r rs' ih =>
      intro f pre map msg hcond hpair hfresh hnil hf
      obtain ⟨f', rfl⟩ : ∃ f', f = f' + 1 := ⟨f - 1, by omega⟩
      obtain ⟨hk_ne, hk10, hk32, hl_ne, hl_nnil, hl10⟩ := hcond r (List.mem_cons_self ..)
      have hcond' : ∀ x ∈ rs', x.1 ≠ [] ∧ 10 ∉ x.1 ∧ 32 ∉ x.1 ∧ x.2 ≠ [] ∧ x.2 ≠ [[]]
          ∧ ∀ l ∈ x.2, 10 ∉ l := fun x hx => hcond x (List.mem_cons_of_mem _ hx)
      obtain ⟨hhead, htail⟩ := List.pairwise_cons.mp hpair
      obtain ⟨kh, kt, hk⟩ : ∃ kh kt, r.1 = kh :: kt := by
        cases hr : r.1 with
        | nil => exact absurd hr hk_ne
        | cons a b => exact ⟨a, b, rfl⟩
      have hJne : joinSep [10, 32] r.2 ≠ [] := joinSep_ne_nil r.2 hl_ne hl_nnil
      have hVne : joinSep [10] r.2 ≠ [] := joinSep10_ne_nil r.2 hl_ne hl_nnil
      have hVle := joinSep_length_le r.2
      have hJlen1 : 1 ≤ (joinSep [10, 32] r.2).length := by
        cases hj : joinSep [10, 32] r.2 with
        | nil => exact absurd hj hJne
        | cons a b => simp
      have hVlen1 : 1 ≤ (joinSep [10] r.2).length := by
        cases hv : joinSep [10] r.2 with
        | nil => exact absurd hv hVne
        | cons a b => simp
      have hraw : pre ++ canonBytes (r :: rs') msg
          = pre ++ (r.1 ++ (32 :: (joinSep [10, 32] r.2 ++ 10 :: canonBytes rs' msg))) := by
        rw [canonBytes_cons, canonRec, flatMap_lines r.2 hl_ne]
        simp [List.append_assoc]
      have hlenraw : (pre ++ canonBytes (r :: rs') msg).length
          = pre.length + r.1.length + 1 + (joinSep [10, 32] r.2).length
            + 1 + (canonBytes rs' msg).length := by
        rw [hraw]
        simp only [List.length_append, List.length_cons]
        omega
      have hklen : 1 ≤ r.1.length := by rw [hk]; simp
      have hne : ¬((pre ++ canonBytes (r :: rs') msg).length = pre.length) := by omega
      have hidx : idx? (pre ++ canonBytes (r :: rs') msg) pre.length = .ok kh := by
        rw [hraw, hk,
          show pre ++ ((kh :: kt) ++ (32 :: (joinSep [10, 32] r.2 ++ 10 :: canonBytes rs' msg)))
            = pre ++ kh :: (kt ++ (32 :: (joinSep [10, 32] r.2 ++ 10 :: canonBytes rs' msg)))
            from by simp]
        exact idx?_append pre _ kh
      have hkh10 : ¬(kh = 10) := fun hc => hk10 (by rw [hk, ← hc]; exact List.mem_cons_self ..)
      have hdrop0 : (pre ++ canonBytes (r :: rs') msg).drop pre.length
          = r.1 ++ 32 :: (joinSep [10, 32] r.2 ++ 10 :: canonBytes rs' msg) := by
        rw [hraw, drop_at]
      have hpos : posFrom (pre ++ canonBytes (r :: rs') msg) pre.length 32
          = some r.1.length := by
        rw [posFrom_drop, hdrop0]
        exact findIdx?_sep 32 r.1 _ hk32
      rw [parseRec_step f' _ map pre.length hne kh hidx hkh10 r.1.length hpos]
      have hdropv : (pre ++ canonBytes (r :: rs') msg).drop (pre.length + r.1.length + 1)
          = joinSep [10, 32] r.2 ++ 10 :: canonBytes rs' msg := by
        rw [hraw,
          show pre ++ (r.1 ++ (32 :: (joinSep [10, 32] r.2 ++ 10 :: canonBytes rs' msg)))
            = (pre ++ r.1 ++ [32]) ++ (joinSep [10, 32] r.2 ++ 10 :: canonBytes rs' msg)
            from by simp,
          show pre.length + r.1.length + 1 = (pre ++ r.1 ++ [32]).length from by
            simp only [List.length_append, List.length_cons, List.length_nil]
            all_goals omega]
        exact drop_at _ _
      have hfind : findEnd (pre ++ canonBytes (r :: rs') msg).length
          (pre ++ canonBytes (r :: rs') msg) (pre.length + r.1.length + 1)
          = .ok (pre.length + r.1.length + 1 + (joinSep [10, 32] r.2).length) :=
        findEnd_canon _ r.2 _ _ (canonBytes rs' msg) hl_ne hl10
          (Or.inr (canonBytes_headD_ne_32 rs' msg (fun x hx => (hcond' x hx).1)
            (fun x hx => (hcond' x hx).2.2.1)))
          hdropv
          (by
            have h1 := lines_le_joinSep r.2
            omega)
      rw [hfind]
      simp only [PRes.bind]
      have hsllt : pre.length + r.1.length + 1
          < (pre ++ canonBytes (r :: rs') msg).length := by omega
      have hsle : pre.length + r.1.length + 1 + (joinSep [10, 32] r.2).length
          ≤ (pre ++ canonBytes (r :: rs') msg).length := by omega
      rw [cleanValue_run _ _ _ hsllt hsle]
      have hsliceJ : slice (pre ++ canonBytes (r :: rs') msg) (pre.length + r.1.length + 1)
          (pre.length + r.1.length + 1 + (joinSep [10, 32] r.2).length)
          = joinSep [10, 32] r.2 := by
        rw [slice_drop_take,
          show pre.length + r.1.length + 1 + (joinSep [10, 32] r.2).length
              - (pre.length + r.1.length + 1) = (joinSep [10, 32] r.2).length from by omega,
          hdropv]
        exact List.take_left' rfl
      rw [hsliceJ, dropBoundarySpaces_joinSep r.2 hl10]
      simp only [PRes.bind]
      have hkey : slice (pre ++ canonBytes (r :: rs') msg) pre.length
          (pre.length + r.1.length) = r.1 := by
        rw [hraw]; exact slice_at pre r.1 _
      rw [hkey, mapPush_fresh map r.1 _ (hfresh r (List.mem_cons_self ..))]
      have hVd1 : ((joinSep [10] r.2).drop 1).length = (joinSep [10] r.2).length - 1 := by
        simp [List.length_drop]
      have htake : (pre ++ canonBytes (r :: rs') msg).take (pre.length + r.1.length + 1 + 1)
          = pre ++ r.1 ++ [32] ++ (joinSep [10, 32] r.2).take 1 := by
        rw [hraw,
          show pre ++ (r.1 ++ (32 :: (joinSep [10, 32] r.2 ++ 10 :: canonBytes rs' msg)))
            = (pre ++ r.1 ++ [32]) ++ (joinSep [10, 32] r.2 ++ 10 :: canonBytes rs' msg)
            from by simp,
          show pre.length + r.1.length + 1 + 1 = (pre ++ r.1 ++ [32]).length + 1 from by
            simp only [List.length_append, List.length_cons, List.length_nil]
            all_goals omega,
          take_append_add, List.take_append_of_le_length hJlen1]
      have hdropend : (pre ++ canonBytes (r :: rs') msg).drop
          (pre.length + r.1.length + 1 + 1 + ((joinSep [10] r.2).drop 1).length)
          = (joinSep [10, 32] r.2).drop (joinSep [10] r.2).length
            ++ 10 :: canonBytes rs' msg := by
        rw [hraw,
          show pre ++ (r.1 ++ (32 :: (joinSep [10, 32] r.2 ++ 10 :: canonBytes rs' msg)))
            = (pre ++ r.1 ++ [32]) ++ (joinSep [10, 32] r.2 ++ 10 :: canonBytes rs' msg)
            from by simp,
          show pre.length + r.1.length + 1 + 1 + ((joinSep [10] r.2).drop 1).length
            = (pre ++ r.1 ++ [32]).length + (joinSep [10] r.2).length from by
              simp only [List.length_append, List.length_cons, List.length_nil, hVd1]
              all_goals omega,
          drop_append_add, List.drop_append_of_le_length hVle]
      have hheadJV : (joinSep [10, 32] r.2).take 1 ++ (joinSep [10] r.2).drop 1
          = joinSep [10] r.2 := by
        obtain ⟨jh, jt, hJc⟩ : ∃ jh jt, joinSep [10, 32] r.2 = jh :: jt := by
          cases hj : joinSep [10, 32] r.2 with
          | nil => exact absurd hj hJne
          | cons a b => exact ⟨a, b, rfl⟩
        have hdbs : dropBoundarySpaces (joinSep [10, 32] r.2) = joinSep [10] r.2 :=
          dropBoundarySpaces_joinSep r.2 hl10
        have hVh : joinSep [10] r.2 = jh :: (joinSep [10] r.2).drop 1 := by
          conv_lhs => rw [← hdbs, hJc, dropBoundary_head jh jt, ← hJc, hdbs]
        rw [hJc]
        conv_rhs => rw [hVh]
        rfl
      have hB : (pre ++ r.1 ++ [32] ++ (joinSep [10, 32] r.2).take 1)
            ++ (joinSep [10] r.2).drop 1
            ++ ((joinSep [10, 32] r.2).drop (joinSep [10] r.2).length
                ++ 10 :: canonBytes rs' msg)
          = (pre ++ procRec r) ++ canonBytes rs' msg := by
        rw [procRec]
        conv_rhs => rw [← hheadJV]
        simp [List.append_assoc]
        congr 1
        all_goals omega
      rw [htake, hdropend, hB]
      have hprocl : (pre ++ procRec r).length
          = pre.length + r.1.length + 1 + (joinSep [10, 32] r.2).length + 1 := by
        have h2 := procRec_length r hl_ne
        rw [List.length_append, h2, canonRec, flatMap_lines r.2 hl_ne]
        simp only [List.length_append, List.length_cons, List.length_nil]
        omega
      rw [show pre.length + r.1.length + 1 + (joinSep [10, 32] r.2).length + 1
          = (pre ++ procRec r).length from hprocl.symm]
      have hcur : pre.length + r.1.length + 1 + 1 + ((joinSep [10] r.2).drop 1).length
          = pre.length + r.1.length + 1 + (joinSep [10] r.2).length := by
        rw [hVd1]; omega
      rw [hcur]
      have hfresh' : ∀ x ∈ rs', mapGet (map ++ [(r.1, [(pre.length + r.1.length + 1,
          pre.length + r.1.length + 1 + (joinSep [10] r.2).length)])]) x.1 = none := by
        intro x hx
        rw [mapGet_append _ _ _ (hfresh x (List.mem_cons_of_mem _ hx))]
        exact mapGet_single_ne _ _ _ (hhead x hx)
      have hnil' : mapGet (map ++ [(r.1, [(pre.length + r.1.length + 1,
          pre.length + r.1.length + 1 + (joinSep [10] r.2).length)])]) [] = none := by
        rw [mapGet_append _ _ _ hnil]
        exact mapGet_single_ne _ _ _ hk_ne
      have hih := ih f' (pre ++ procRec r) (map ++ [(r.1, [(pre.length + r.1.length + 1,
          pre.length + r.1.length + 1 + (joinSep [10] r.2).length)])]) msg
        hcond' htail hfresh' hnil' (by simp only [List.length_cons] at hf; omega)
      rw [hih]
      rw [show canonEntries pre.length (r :: rs')
          = (r.1, [(pre.length + r.1.length + 1,
              pre.length + r.1.length + 1 + (joinSep [10] r.2).length)])
            :: canonEntries (pre.length + (canonRec r).length) rs' from rfl]
      have hlen2 : (pre ++ procRec r).length = pre.length + (canonRec r).length := by
        rw [List.length_append, procRec_length r hl_ne]
      rw [← hlen2]
      simp [procBytes_cons, List.append_assoc]

/-- `kvlm_parse` on a canonical buffer. -/
theorem kvlmParse_canon (rs : List (Bytes × List Bytes)) (msg : Bytes)
    (h : CanonRecords rs) :
    kvlmParse (canonBytes rs msg)
      = .ok (procBytes rs msg,
          canonEntries 0 rs
            ++ [([], [(((rs.map procRec).flatten).length + 1,
                       (procBytes rs msg).length)])]) := by
  obtain ⟨hpair, hcond⟩ := h
  have hp := parseRec_canon rs ((canonBytes rs msg).length + 1) [] [] msg
    hcond hpair (fun r hr => rfl) rfl
    (by
      have h1 := rs_length_le_flatten rs (fun r hr => (hcond r hr).1)
      simp only [canonBytes, List.length_append, List.length_cons]
      omega)
  simpa [kvlmParse] using hp

/-! ## C4 counterexample -/

/-- C4 counterexample: on the specification's own example value
`Thibault Polge <thibault@thb.lt> 1527025044 +0200` the claim demands
1527025044, but `committer_timestamp` runs `str::parse::<u32>` on the
whole record value — which fails — and so answers 0. -/
theorem c4_counterexample_whole_value_parsed :
    committerTimestampOf c4Buf = .ok 0
    ∧ committerTimestampOf c4Buf ≠ .ok 1527025044 := by
  refine ⟨by decide, fun h => ?_⟩
  rw [show committerTimestampOf c4Buf = .ok 0 from by decide] at h
  simp at h

/-- C4 (amended): `committer_timestamp()` parses the ENTIRE value of the
first `committer` record with `str::parse::<u32>`, returning that number
on success and `0` when the whole value is not such an integer. -/
theorem c4_amended_whole_value_timestamp (v msg : Bytes) (h1 : v ≠ []) (h2 : 10 ∉ v) :
    committerTimestampOf (ascii ("committer ") ++ v ++ [10, 10] ++ msg)
      = .ok ((rustParseUInt (2 ^ 32) v).getD 0) := by
  have hascii : ascii ("committer ") = ascii ("committer") ++ [32] := by decide
  have hbuf : ascii ("committer ") ++ v ++ [10, 10] ++ msg
      = canonBytes [(ascii ("committer"), [v])] msg := by
    rw [hascii]
    simp [canonBytes, canonRec, List.append_assoc]
  have hcanon : CanonRecords [(ascii ("committer"), [v])] := by
    refine ⟨by simp, ?_⟩
    intro r hr
    simp only [List.mem_singleton] at hr
    subst hr
    refine ⟨(by decide : ascii ("committer") ≠ []),
      (by decide : 10 ∉ ascii ("committer")),
      (by decide : 32 ∉ ascii ("committer")), by simp, by simp [h1], ?_⟩
    intro l hl
    simp only [List.mem_singleton] at hl
    subst hl
    exact h2
  have hj1 : joinSep [10] [v] = v := rfl
  have hj2 : joinSep [10, 32] [v] = v := rfl
  have hD : procBytes [(ascii ("committer"), [v])] msg
      = ascii ("committer ") ++ (v ++ 10 :: 10 :: msg) := by
    rw [hascii]
    simp [procBytes, procRec, hj1, hj2, List.drop_length, List.append_assoc]
  have hsl : slice (procBytes [(ascii ("committer"), [v])] msg)
      ((ascii ("committer ")).length) ((ascii ("committer ")).length + v.length) = v := by
    rw [hD]
    exact slice_at _ v _
  rw [hbuf]
  simp only [committerTimestampOf, CommitObject.from?, kvlmParse_canon _ _ hcanon]
  simp only [PRes.map, CommitObject.committerTimestamp, CommitObject.get]
  simp only [canonEntries, hj1, List.nil_append, List.cons_append]
  rw [mapGet_cons, if_pos rfl]
  simp only [List.map_cons, List.map_nil, List.head?_cons]
  rw [show (0 + (ascii ("committer")).length + 1 : Nat)
      = (ascii ("committer ")).length from by decide]
  rw [hsl]

/-- C4 amended-claim witness: on the value `1527025044` (a bare integer,
no author name) the timestamp really is parsed from the whole value. -/
theorem c4_amended_witness :
    committerTimestampOf (ascii ("committer ") ++ ascii ("1527025044") ++ [10, 10] ++ ascii ("m"))
      = .ok ((rustParseUInt (2 ^ 32) (ascii ("1527025044"))).getD 0) :=
  c4_amended_whole_value_timestamp (ascii ("1527025044")) (ascii ("m"))
    (by decide) (by decide)

/-- The body loop of `kvlm_serialize` over the canonical entries: each
entry re-splits its folded value and reconstitutes the record bytes. -/
theorem serializeBody_canon :
    ∀ (rs : List (Bytes × List Bytes)) (pre : Bytes) (msg : Bytes),
      (∀ r ∈ rs, r.1 ≠ [] ∧ r.2 ≠ [] ∧ r.2 ≠ [[]] ∧ ∀ l ∈ r.2, 10 ∉ l) →
      ((canonEntries pre.length rs).filter (fun p => !(p.1 == []))).flatMap
          (fun p => p.1 ++ p.2.flatMap fun rg =>
            ((slice (pre ++ procBytes rs msg) rg.1 rg.2).splitOn 10).flatMap
              fun c => 32 :: c ++ [10])
        = (rs.map canonRec).flatten := by
  intro rs
  induction rs with
  | nil => intro pre msg _; rfl
  | cons r rs' ih =>
      intro pre msg hcond
      obtain ⟨hk_ne, hl_ne, hl_nnil, hl10⟩ := hcond r (List.mem_cons_self ..)
      have hcond' : ∀ x ∈ rs', x.1 ≠ [] ∧ x.2 ≠ [] ∧ x.2 ≠ [[]] ∧ ∀ l ∈ x.2, 10 ∉ l :=
        fun x hx => hcond x (List.mem_cons_of_mem _ hx)
      have hVle := joinSep_length_le r.2
      rw [show canonEntries pre.length (r :: rs')
          = (r.1, [(pre.length + r.1.length + 1,
              pre.length + r.1.length + 1 + (joinSep [10] r.2).length)])
            :: canonEntries (pre.length + (canonRec r).length) rs' from rfl]
      rw [List.filter_cons_of_pos (by simp [hk_ne]), List.flatMap_cons]
      have hdata : pre ++ procBytes (r :: rs') msg
          = (pre ++ r.1 ++ [32]) ++ (joinSep [10] r.2
              ++ ((joinSep [10, 32] r.2).drop (joinSep [10] r.2).length
                  ++ 10 :: procBytes rs' msg)) := by
        rw [procBytes_cons, procRec]
        simp [List.append_assoc]
      have hsliceV : slice (pre ++ procBytes (r :: rs') msg)
          (pre.length + r.1.length + 1)
          (pre.length + r.1.length + 1 + (joinSep [10] r.2).length)
          = joinSep [10] r.2 := by
        rw [hdata,
          show pre.length + r.1.length + 1 = (pre ++ r.1 ++ [32]).length from by
            simp only [List.length_append, List.length_cons, List.length_nil]
            all_goals omega]
        exact slice_at _ _ _
      simp only [List.flatMap_cons, List.flatMap_nil, List.append_nil]
      rw [hsliceV, splitOn_joinSep r.2 hl_ne hl10]
      rw [show r.1 ++ r.2.flatMap (fun c => 32 :: c ++ [10]) = canonRec r from rfl]
      have hlen2 : pre.length + (canonRec r).length = (pre ++ procRec r).length := by
        rw [List.length_append, procRec_length r hl_ne]
      rw [hlen2,
        show pre ++ procBytes (r :: rs') msg
          = (pre ++ procRec r) ++ procBytes rs' msg from by
          rw [procBytes_cons]
          exact (List.append_assoc ..).symm]
      rw [ih (pre ++ procRec r) msg hcond']
      simp

/-- `kvlm_serialize` of a canonical parse result reproduces the
canonical buffer byte for byte. -/
theorem serialize_canon (rs : List (Bytes × List Bytes)) (msg : Bytes)
    (h : CanonRecords rs) :
    kvlmSerialize (procBytes rs msg)
        (canonEntries 0 rs
          ++ [([], [(((rs.map procRec).flatten).length + 1,
                     (procBytes rs msg).length)])])
      = canonBytes rs msg := by
  obtain ⟨hpair, hcond⟩ := h
  simp only [kvlmSerialize]
  rw [List.filter_append,
    show List.filter (fun p => !(p.1 == []))
        [(([] : Bytes), [(((rs.map procRec).flatten).length + 1,
          (procBytes rs msg).length)])] = [] from by simp,
    List.append_nil]
  rw [List.reverse_append]
  simp only [List.reverse_cons, List.reverse_nil, List.nil_append, List.cons_append,
    List.find?_cons]
  rw [show (((([] : Bytes)) == ([] : Bytes))) = true from by simp]
  simp only [Option.map_some']
  have hbody := serializeBody_canon rs [] msg
    (fun x hx => ⟨(hcond x hx).1, (hcond x hx).2.2.2.1, (hcond x hx).2.2.2.2.1,
      (hcond x hx).2.2.2.2.2⟩)
  simp only [List.length_nil, List.nil_append] at hbody
  have hmsg : slice (procBytes rs msg) (((rs.map procRec).flatten).length + 1)
      ((procBytes rs msg).length) = msg := by
    rw [show procBytes rs msg
        = ((rs.map procRec).flatten ++ [10]) ++ (msg ++ []) from by
        simp [procBytes],
      show ((rs.map procRec).flatten).length + 1
        = (((rs.map procRec).flatten ++ [10])).length from by
        simp only [List.length_append, List.length_cons, List.length_nil]
        all_goals omega]
    have h3 : ((((rs.map procRec).flatten ++ [10])) ++ (msg ++ [])).length
        = (((rs.map procRec).flatten ++ [10])).length + msg.length := by
      simp only [List.length_append, List.length_nil]
      all_goals omega
    rw [h3]
    exact slice_at _ _ _
  simp only [List.flatMap_cons, List.flatMap_nil, List.append_nil]
  rw [hmsg]
  rw [show canonBytes rs msg = (rs.map canonRec).flatten ++ 10 :: msg from rfl]
  exact congrArg (fun x => x ++ 10 :: msg) hbody

/-! ## C5 counterexample -/

/-- C5 counterexample: the parser accepts `c5Buf` (`a 1\na 2\n\nm`) and
its serialization, yet re-parsing the serialization does not reproduce
the multi-map: the serializer emits the repeated key `a` once with its
two values as continuation lines, which re-parse as the single value
`1\n2`. -/
theorem c5_counterexample_repeated_key :
    matParse c5Buf
      = some [(ascii ("a"), [ascii ("1"), ascii ("2")]), ([], [ascii ("m")])]
    ∧ (reSerialize c5Buf).bind matParse
      = some [(ascii ("a"), [[49, 10, 50]]), ([], [ascii ("m")])]
    ∧ (reSerialize c5Buf).bind matParse ≠ matParse c5Buf := by
  refine ⟨by decide, by decide, fun h => ?_⟩
  rw [show matParse c5Buf
      = some [(ascii ("a"), [ascii ("1"), ascii ("2")]), ([], [ascii ("m")])]
      from by decide,
    show (reSerialize c5Buf).bind matParse
      = some [(ascii ("a"), [[49, 10, 50]]), ([], [ascii ("m")])]
      from by decide] at h
  simp [ascii] at h

/-- C5 (amended): on canonical inputs whose keys are pairwise distinct,
serialize after parse reproduces the original bytes exactly (and hence
re-parsing yields the same ordered multi-map). -/
theorem c5_amended_canonical_roundtrip (rs : List (Bytes × List Bytes)) (msg : Bytes)
    (h : CanonRecords rs) :
    (kvlmParse (canonBytes rs msg)).map (fun p => kvlmSerialize p.1 p.2)
      = .ok (canonBytes rs msg) := by
  rw [kvlmParse_canon rs msg h]
  simp only [PRes.map]
  rw [serialize_canon rs msg h]

/-- C5 amended-claim witness: a commit-shaped canonical buffer with a
`tree` record and a multi-line `gpgsig` record round-trips exactly. -/
theorem c5_amended_witness :
    (kvlmParse (canonBytes
        [(ascii ("tree"), [ascii ("29ff16c9c14e2652b22f8b78bb08a5a07930c147")]),
         (ascii ("gpgsig"), [ascii ("-----BEGIN PGP SIGNATURE-----"),
                             ascii ("iQIzBAABCAAdFiEE"),
                             ascii ("-----END PGP SIGNATURE-----")])]
        (ascii ("Create first draft")))).map (fun p => kvlmSerialize p.1 p.2)
      = .ok (canonBytes
        [(ascii ("tree"), [ascii ("29ff16c9c14e2652b22f8b78bb08a5a07930c147")]),
         (ascii ("gpgsig"), [ascii ("-----BEGIN PGP SIGNATURE-----"),
                             ascii ("iQIzBAABCAAdFiEE"),
                             ascii ("-----END PGP SIGNATURE-----")])]
        (ascii ("Create first draft"))) :=
  c5_amended_canonical_roundtrip _ _ ⟨by decide, by decide⟩

/-! ## C6 -/

/-- C6 counterexample: the complete run from `[0]` under `c6Oracle`
emits each commit once, but the committer-timestamp sequence is
`[10, 20]` — strictly increasing — because a parent pushed after its
child was already emitted can carry a larger timestamp.  (Five steps of
fuel exhaust the frontier, so `[[0], [1]]` is the complete run.) -/
theorem c6_counterexample_increasing_timestamps :
    logRun c6Oracle (logInit c6Oracle [0]) 5 = [[0], [1]]
    ∧ logRunTs c6Oracle (logInit c6Oracle [0]) 5 = [10, 20]
    ∧ nonIncr (logRunTs c6Oracle (logInit c6Oracle [0]) 5) = false := by
  decide

theorem popFresh_spec :
    ∀ (n : Nat) (s : LogState) (cur : Bytes) (s' : LogState),
      popFresh n s = some (cur, s') → cur ∉ s.seen ∧ s'.seen = cur :: s.seen := by
  intro n
  induction n with
  | zero => intro s cur s' h; simp [popFresh] at h
  | succ n ih =>
      intro s cur s' h
      unfold popFresh at h
      cases hp : popMax s.heap with
      | none => rw [hp] at h; simp at h
      | some q =>
          obtain ⟨⟨t, cid⟩, rest⟩ := q
          rw [hp] at h
          by_cases hin : cid ∈ s.seen
          · simp only [hin, if_pos] at h
            exact ih ⟨rest, s.seen⟩ cur s' h
          · simp only [hin, if_neg, not_false_iff, Option.some.injEq,
              Prod.mk.injEq] at h
            obtain ⟨h1, h2⟩ := h
            subst h1
            rw [← h2]
            exact ⟨hin, rfl⟩

theorem logStep_spec {g : Bytes → CommitNode} {s s' : LogState} {cur : Bytes}
    (h : logStep g s = some (cur, s')) :
    cur ∉ s.seen ∧ s'.seen = cur :: s.seen := by
  unfold logStep at h
  cases hp : popFresh s.heap.length s with
  | none => rw [hp] at h; simp at h
  | some q =>
      rw [hp] at h
      simp only [Option.some.injEq, Prod.mk.injEq] at h
      obtain ⟨h1, h2⟩ := h
      have hq := popFresh_spec s.heap.length s q.1 q.2 (by rw [hp])
      subst h1
      exact ⟨hq.1, by rw [← h2]; exact hq.2⟩

theorem logRun_avoids_seen (g : Bytes → CommitNode) :
    ∀ (n : Nat) (s : LogState),
      (logRun g s n).Nodup ∧ ∀ x ∈ logRun g s n, x ∉ s.seen := by
  intro n
  induction n with
  | zero => intro s; simp [logRun]
  | succ n ih =>
      intro s
      unfold logRun
      cases hs : logStep g s with
      | none => simp
      | some q =>
          obtain ⟨hfresh, hseen⟩ := @logStep_spec g s q.2 q.1 (by rw [hs])
          obtain ⟨ihn, ihs⟩ := ih q.2
          constructor
          · refine List.Pairwise.cons (fun x hx => ?_) ihn
            intro hxq
            exact ihs x hx (by rw [hseen, hxq]; exact List.mem_cons_self ..)
          · intro x hx
            rcases List.mem_cons.mp hx with h | h
            · rw [h]; exact hfresh
            · have := ihs x h
              rw [hseen] at this
              exact fun hmem => this (List.mem_cons_of_mem _ hmem)

/-- C6 amended: what survives of the claim — over any run of the log
iterator (from any start, under any commit oracle, for any number of
steps) no identifier is emitted twice.  The non-increasing-timestamp
half is refuted by `c6_counterexample_increasing_timestamps`. -/
theorem c6_amended_no_duplicate_emission :
    ∀ (g : Bytes → CommitNode) (start : Bytes) (n : Nat),
      (logRun g (logInit g start) n).Nodup :=
  fun g start n => (logRun_avoids_seen g n (logInit g start)).1

/-! ## C10 -/

theorem rebuildGo_panic_iff (ref : Bytes) :
    ∀ (l : List DeltaInstruction) (acc : Bytes),
      rebuildGo ref l acc = .panic
        ↔ ∃ o s, DeltaInstruction.copy o s ∈ l ∧ ref.length < o + s := by
  intro l
  induction l with
  | nil =>
      intro acc
      simp [rebuildGo]
  | cons instr rest ih =>
      intro acc
      cases instr with
      | copy o s =>
          by_cases hb : o + s ≤ ref.length
          · rw [show rebuildGo ref (.copy o s :: rest) acc
                = rebuildGo ref rest (acc ++ slice ref o (o + s)) from by
                  simp [rebuildGo, hb]]
            rw [ih]
            constructor
            · rintro ⟨o', s', hm, hlt⟩
              exact ⟨o', s', List.mem_cons_of_mem _ hm, hlt⟩
            · rintro ⟨o', s', hm, hlt⟩
              rcases List.mem_cons.mp hm with h | h
              · cases h; omega
              · exact ⟨o', s', h, hlt⟩
          · rw [show rebuildGo ref (.copy o s :: rest) acc = .panic from by
                simp [rebuildGo, hb]]
            simp only [true_iff]
            exact ⟨o, s, List.mem_cons_self .., by omega⟩
      | insert d =>
          rw [show rebuildGo ref (.insert d :: rest) acc
              = rebuildGo ref rest (acc ++ d) from by simp [rebuildGo]]
          rw [ih]
          constructor
          · rintro ⟨o', s', hm, hlt⟩
            exact ⟨o', s', List.mem_cons_of_mem _ hm, hlt⟩
          · rintro ⟨o', s', hm, hlt⟩
            rcases List.mem_cons.mp hm with h | h
            · cases h
            · exact ⟨o', s', h, hlt⟩

/-- C10: confirmed.  `rebuild` aborts with a slice-index panic exactly
when some `Copy(offset, size)` instruction reaches past the end of the
caller-supplied base, and is total (returns a value or a
size-mismatch error, never a panic) exactly under the precondition
`offset + size ≤ len(base)` for every copy instruction. -/
theorem c10_rebuild_total_iff_copies_in_bounds :
    ∀ (d : DeltaObject) (ref : Bytes),
      d.rebuild ref ≠ .panic
        ↔ ∀ o s, DeltaInstruction.copy o s ∈ d.instructions → o + s ≤ ref.length := by
  intro d ref
  unfold DeltaObject.rebuild
  cases hgo : rebuildGo ref d.instructions [] with
  | panic =>
      obtain ⟨o, s, hm, hlt⟩ := (rebuildGo_panic_iff ref d.instructions []).mp hgo
      simp only [PRes.bind, ne_eq, not_true_eq_false, false_iff, not_forall]
      exact ⟨o, s, hm, by omega⟩
  | err e =>
      simp only [PRes.bind, ne_eq, reduceCtorEq, not_false_eq_true, true_iff]
      intro o s hm
      by_contra hlt
      rw [(rebuildGo_panic_iff ref d.instructions []).mpr ⟨o, s, hm, by omega⟩] at hgo
      exact PRes.noConfusion hgo
  | ok res =>
      have hne : ∀ o s, DeltaInstruction.copy o s ∈ d.instructions →
          o + s ≤ ref.length := by
        intro o s hm
        by_contra hlt
        rw [(rebuildGo_panic_iff ref d.instructions []).mpr ⟨o, s, hm, by omega⟩] at hgo
        exact PRes.noConfusion hgo
      simp only [PRes.bind, ne_eq]
      constructor
      · intro _; exact hne
      · intro _
        by_cases hlen : res.length = d.expandedSize <;> simp [hlen]

/-! ## C9 -/

/-- C9: confirmed (reading the claim's target directory as the gitdir
the source inspects).  `init` refuses whenever the gitdir exists as a
non-empty directory, and proceeds — creating `branches`, `objects`,
`refs/tags`, `refs/heads`, the description placeholder, a `HEAD`
pointing to `refs/heads/master` and a config with
`core.repositoryformatversion = 0` — whenever the gitdir is absent or an
empty directory (and the worktree path, when present, is a
directory). -/
theorem c9_init_refusal_and_skeleton :
    ∀ fs : InitFS,
      (fs.worktreeExists = true → fs.gitdirExists = true → fs.gitdirIsDir = true →
        fs.gitdirEmpty = false → ∃ e, repoInit fs = .err e)
      ∧ ((fs.gitdirExists = false ∨ fs.gitdirIsDir = true ∧ fs.gitdirEmpty = true) →
          (fs.worktreeExists = true → fs.worktreeIsDir = true) →
          repoInit fs = .ok initSkeleton
          ∧ initSkeleton.dirs = ["branches", "objects", "refs/tags", "refs/heads"]
          ∧ ("HEAD", "ref: refs/heads/master\n") ∈ initSkeleton.files
          ∧ ("core", "repositoryformatversion", "0") ∈ initSkeleton.config) := by
  rintro ⟨we, wd, ge, gd, gem⟩
  constructor
  · intro hwe hge hgd hgem
    subst hwe hge hgd hgem
    cases wd <;> exact ⟨_, rfl⟩
  · rintro hcase hw
    cases we with
    | false => cases ge <;> cases gd <;> cases gem <;> simp_all [repoInit, initSkeleton]
    | true =>
        have hwd : wd = true := hw rfl
        subst hwd
        cases ge <;> cases gd <;> cases gem <;> simp_all [repoInit, initSkeleton]

/-- C9 witness: a non-empty gitdir is refused; on a fresh path the
skeleton (with the claimed entries) is created. -/
theorem c9_witness :
    (∃ e, repoInit ⟨true, true, true, true, false⟩ = .err e)
    ∧ (repoInit ⟨false, false, false, false, false⟩ = .ok initSkeleton
        ∧ initSkeleton.dirs = ["branches", "objects", "refs/tags", "refs/heads"]
        ∧ ("HEAD", "ref: refs/heads/master\n") ∈ initSkeleton.files
        ∧ ("core", "repositoryformatversion", "0") ∈ initSkeleton.config) :=
  ⟨(c9_init_refusal_and_skeleton ⟨true, true, true, true, false⟩).1 rfl rfl rfl rfl,
   (c9_init_refusal_and_skeleton ⟨false, false, false, false, false⟩).2
     (Or.inl rfl) (fun h => by cases h)⟩

end Wyag

